import Mathlib

/-!
Shallow embedding of the `lsmtree` crate (src/lib.rs, src/mem_table.rs) and
verification of its specification claims.

Bytes are modelled as `Nat` (values < 256 where it matters), byte strings as
`List Nat`, file names as `List Char`.  Fallible code returns `Except`/`Option`;
machine integers are `Nat` with explicit `% 2^32` / `% 2^64` where the Rust
code performs `as u32` / `u64` arithmetic.
-/

namespace Lsm

/-- Two to the thirty-two, the `u32` modulus. -/
def U32 : Nat := 4294967296

/-- Two to the sixty-four, the `u64` modulus. -/
def U64 : Nat := 18446744073709551616

/-- Big-endian encoding of a `u32` value (the Rust code casts with `as u32`,
so we reduce modulo `2^32` bytewise; each byte only depends on `n % 2^32`). -/
def u32be (n : Nat) : List Nat :=
  [n / 16777216 % 256, n / 65536 % 256, n / 256 % 256, n % 256]

/-- Big-endian decoding of four bytes into a `u32` value. -/
def decodeU32 (bs : List Nat) : Nat :=
  match bs with
  | [b0, b1, b2, b3] => b0 * 16777216 + b1 * 65536 + b2 * 256 + b3
  | _ => 0

/-- Big-endian encoding of a `u64` value. -/
def u64be (n : Nat) : List Nat :=
  [n / 72057594037927936 % 256, n / 281474976710656 % 256,
   n / 1099511627776 % 256, n / 4294967296 % 256,
   n / 16777216 % 256, n / 65536 % 256, n / 256 % 256, n % 256]

/-- Big-endian decoding of eight bytes into a `u64` value. -/
def decodeU64 (bs : List Nat) : Nat :=
  match bs with
  | [b0, b1, b2, b3, b4, b5, b6, b7] =>
      b0 * 72057594037927936 + b1 * 281474976710656 + b2 * 1099511627776 +
      b3 * 4294967296 + b4 * 16777216 + b5 * 65536 + b6 * 256 + b7
  | _ => 0

/-- Model of `ReadAt::read_exact_at`: returns `len` bytes starting at `offset`,
or fails (in-model the only failure is reading past end of file, which Rust
reports as an `UnexpectedEof` I/O error). -/
def readExactAt (file : List Nat) (offset len : Nat) : Option (List Nat) :=
  if offset + len ≤ file.length then some ((file.drop offset).take len) else none

/-- Lexicographic comparison of byte strings, as Rust's `Ord for [u8]`
(element-wise, shorter prefix is less). -/
def listCmp : List Nat → List Nat → Ordering
  | [], [] => .eq
  | [], _ :: _ => .lt
  | _ :: _, [] => .gt
  | a :: as, b :: bs => if a < b then .lt else if b < a then .gt else listCmp as bs

/-- Boolean test for `&[u8] < &[u8]` used by `SSTableReader::get`. -/
def lexLt (a b : List Nat) : Bool := listCmp a b = .lt

/-! ### Rust `slice::binary_search_by`

The loop from Rust's standard library (the size-halving variant used since
1.52): `base`/`size`, `half = size / 2`, `mid = base + half`, keep `base` on
`Greater` else move to `mid`, `size -= half`; after the loop compare the
element at `base`.  `partition_point` and `binary_search_by_key` are defined
on top of it, as in the standard library.  The loop runs at most `n` times
(`size` strictly decreases), so fuel `n` is sufficient and keeps the
definition structurally recursive. -/

/-- Loop of Rust's `binary_search_by`; `g i` is the comparison of element `i`
against the target. -/
def bsGo (g : Nat → Ordering) : Nat → Nat → Nat → Nat
  | 0, base, _ => base
  | fuel + 1, base, size =>
    if 1 < size then
      bsGo g fuel (if g (base + size / 2) = .gt then base else base + size / 2)
        (size - size / 2)
    else base

/-- Rust's `slice::binary_search_by` on a length-`n` sequence whose element
comparisons are given by `g`: `.ok i` models `Ok(i)` (found at `i`),
`.error i` models `Err(i)` (insertion point `i`); after the loop the element
at `base` decides the result. -/
def rustBinarySearch (g : Nat → Ordering) (n : Nat) : Except Nat Nat :=
  if n = 0 then .error 0
  else
    match g (bsGo g n 0 n) with
    | .eq => .ok (bsGo g n 0 n)
    | .lt => .error (bsGo g n 0 n + 1)
    | .gt => .error (bsGo g n 0 n)

/-- Rust's `slice::partition_point`, implemented via `binary_search_by` with
`pred → Less | Greater` and taking the index from either result. -/
def partitionPoint {α : Type} (dflt : α) (pred : α → Bool) (l : List α) : Nat :=
  match rustBinarySearch (fun i => if pred (l.getD i dflt) then .lt else .gt) l.length with
  | .ok i => i
  | .error i => i

/-- Insertion at an index (Rust `Vec::insert`). -/
def insertAt {α : Type} (i : Nat) (a : α) (l : List α) : List α :=
  l.take i ++ a :: l.drop i

/-! ### MemTable (src/mem_table.rs)

`MemTable` is a sorted vector of `(key, value)` pairs; we carry the entry
list directly.  All three operations binary-search by key. -/

/-- Default entry used to feed `getD` inside the binary search (never read at
an out-of-bounds index when the search is used within bounds). -/
def dfltEntry : List Nat × List Nat := ([], [])

/-- The `binary_search_by_key(&key, |(key, _value)| key)` call shared by the
memtable operations. -/
def memSearch (entries : List (List Nat × List Nat)) (k : List Nat) : Except Nat Nat :=
  rustBinarySearch (fun i => listCmp ((entries.getD i dfltEntry).1) k) entries.length

/-- `MemTable::put`: replace the value in place if the key is found, else
insert at the reported position. -/
def memPut (entries : List (List Nat × List Nat)) (k v : List Nat) :
    List (List Nat × List Nat) :=
  match memSearch entries k with
  | .ok i => entries.set i ((entries.getD i dfltEntry).1, v)
  | .error i => insertAt i (k, v) entries

/-- `MemTable::delete`: remove the entry if found; returns the new entries and
the boolean result. -/
def memDelete (entries : List (List Nat × List Nat)) (k : List Nat) :
    List (List Nat × List Nat) × Bool :=
  match memSearch entries k with
  | .ok i => (entries.eraseIdx i, true)
  | .error _ => (entries, false)

/-- `MemTable::get`. -/
def memGet (entries : List (List Nat × List Nat)) (k : List Nat) :
    Option (List Nat) :=
  match memSearch entries k with
  | .ok i => some (entries.getD i dfltEntry).2
  | .error _ => none

/-! ### SSTable writer (`write_sstable`) -/

/-- Serialized size of one entry: `4 + key_len + 4 + value_len`. -/
def esize (e : List Nat × List Nat) : Nat := 4 + e.1.length + 4 + e.2.length

/-- Offset-section bytes: one big-endian `u64` running offset per entry
(the running offset is accumulated in `u64`, and `u64be` reduces mod `2^64`). -/
def offsetsBytes (off : Nat) : List (List Nat × List Nat) → List Nat
  | [] => []
  | e :: rest => u64be off ++ offsetsBytes (off + esize e) rest

/-- Payload bytes of one entry: `u32 key_len | key | u32 value_len | value`. -/
def entryBytes (e : List Nat × List Nat) : List Nat :=
  u32be e.1.length ++ e.1 ++ u32be e.2.length ++ e.2

/-- Payload section: concatenated entry encodings. -/
def payloadBytes : List (List Nat × List Nat) → List Nat
  | [] => []
  | e :: rest => entryBytes e ++ payloadBytes rest

/-- `write_sstable`: entry count, offset section, payload section. -/
def writeSstable (entries : List (List Nat × List Nat)) : List Nat :=
  u32be entries.length ++ offsetsBytes 0 entries ++ payloadBytes entries

/-! ### SSTable reader (`SSTableReader`)

`open` caches the entry count; `get` binary-searches on disk.  The outer
`Option` is the I/O `Result` (`none` = I/O error); the inner `Option` is the
lookup result.  Note the loop body never probes index 0 and there is no
equality check after the loop. -/

/-- `SSTableReader::open`: read the 4-byte big-endian entry count. -/
def sstOpen (file : List Nat) : Option Nat :=
  (readExactAt file 0 4).map decodeU32

/-- Loop of `SSTableReader::get`.  `n` is the cached table size (used for the
`section_entries` base), `base`/`size` the search window.  Address arithmetic
is `u64` (wrapping), hence the `% U64`. -/
def sstGetGo (file key : List Nat) (n : Nat) : Nat → Nat → Nat → Option (Option (List Nat))
  | 0, _, _ => none
  | fuel + 1, base, size =>
    if 1 < size then
      match readExactAt file ((4 + (base + size / 2) * 8) % U64) 8 with
      | none => none
      | some offB =>
        match readExactAt file ((4 + n * 8 + decodeU64 offB) % U64) 4 with
        | none => none
        | some klB =>
          match readExactAt file ((4 + n * 8 + decodeU64 offB + 4) % U64) (decodeU32 klB) with
          | none => none
          | some mid =>
            if mid = key then
              match readExactAt file ((4 + n * 8 + decodeU64 offB + 4 + decodeU32 klB) % U64) 4 with
              | none => none
              | some vlB =>
                match readExactAt file
                    ((4 + n * 8 + decodeU64 offB + 4 + decodeU32 klB + 4) % U64)
                    (decodeU32 vlB) with
                | none => none
                | some value => some (some value)
            else
              sstGetGo file key n fuel
                (if lexLt mid key then base + size / 2 else base) (size - size / 2)
    else some none

/-- `SSTableReader::get` for a table whose cached size is `n`. -/
def sstTableGet (file : List Nat) (n : Nat) (key : List Nat) :
    Option (Option (List Nat)) :=
  if n = 0 then some none else sstGetGo file key n n 0 n

/-! ### Decimal printing and `u32` parsing (for `format!` and `str::parse`) -/

/-- Character for a single decimal digit. -/
def digitChar (d : Nat) : Char := Char.ofNat (48 + d)

/-- Fuel-driven decimal printer (most significant digit first). -/
def natDigitsGo : Nat → Nat → List Char → List Char
  | 0, _, acc => acc
  | fuel + 1, n, acc =>
    if n < 10 then digitChar n :: acc
    else natDigitsGo fuel (n / 10) (digitChar (n % 10) :: acc)

/-- Decimal representation of a natural number, as `format!("{}", n)`. -/
def natDigits (n : Nat) : List Char := natDigitsGo (n + 1) n []

/-- Numeric value of a digit string. -/
def digitsVal (s : List Char) : Nat :=
  s.foldl (fun a c => 10 * a + (c.toNat - 48)) 0

/-- Parsing of the digit run after the optional sign: nonempty, all ASCII
digits, value below `2^32` (Rust's per-step overflow check fails exactly
when the final value overflows). -/
def digitsU32 (t : List Char) : Option Nat :=
  if t = [] then none
  else if t.all Char.isDigit then
    if digitsVal t < U32 then some (digitsVal t) else none
  else none

/-- Rust's `str::parse::<u32>`: an optional leading `+`, then a nonempty run
of ASCII digits; any other character or overflow past `2^32 - 1` fails.
(A leading `-` fails for the unsigned type.) -/
def parseU32 (s : List Char) : Option Nat :=
  match s with
  | '+' :: rest => digitsU32 rest
  | _ => digitsU32 s

/-- `parse_sstable_name`: split at the first `-`, parse the level, find the
first `.` after the dash, parse the id, and require the remaining suffix to
be exactly `".sst"`. -/
def parseSstableName (name : List Char) : Option (Nat × Nat) :=
  match name.findIdx? (· = '-') with
  | none => none
  | some dash =>
    match parseU32 (name.take dash) with
    | none => none
    | some level =>
      match (name.drop (dash + 1)).findIdx? (· = '.') with
      | none => none
      | some i =>
        match parseU32 ((name.drop (dash + 1)).take i) with
        | none => none
        | some id =>
          if name.drop (dash + 1 + i) = ".sst".toList then some (level, id)
          else none

/-! ### WAL codec and replay (the loop in `Database::open`)

Errors: `eof` models an `UnexpectedEof` I/O error (the only I/O failure that
in-model reads can produce), `notFound` a missing blob on `Storage::read`,
and `invalid msg` `Error::InvalidDatabase(msg)`. -/

/-- Error type of the database model. -/
inductive Err : Type
  | eof : Err
  | notFound : Err
  | invalid : String → Err
  deriving DecidableEq

/-- `read_vec`: a 4-byte big-endian length prefix followed by that many bytes;
returns the bytes and the advanced offset. -/
def readVecE (wal : List Nat) (offset : Nat) : Except Err (List Nat × Nat) :=
  match readExactAt wal offset 4 with
  | none => .error .eof
  | some lenB =>
    match readExactAt wal (offset + 4) (decodeU32 lenB) with
    | none => .error .eof
    | some v => .ok (v, offset + 4 + decodeU32 lenB)

/-- Membership-guarded insertion into the `incomplete_sstables` set
(`HashSet::insert`). -/
def incInsert (l : List (List Char)) (n : List Char) : List (List Char) :=
  if n ∈ l then l else l ++ [n]

/-- Removal from the `incomplete_sstables` set (`HashSet::remove`). -/
def incErase (l : List (List Char)) (n : List Char) : List (List Char) :=
  l.filter (· ≠ n)

/-- Conversion of WAL name bytes to a file name: `String::from_utf8` followed
by the `is_ascii` check succeeds exactly when every byte is below 128. -/
def bytesToName (bs : List Nat) : Option (List Char) :=
  if bs.all (· < 128) then some (bs.map Char.ofNat) else none

/-- The WAL replay loop of `Database::open`.  At each iteration: read the
1-byte type tag (an EOF here breaks cleanly), validate it, read one
length-prefixed `key`, then the per-type payload.  Note that the reader takes
a second length-prefixed string for `WriteSstableStart`/`End` records (the
`table_name`) in addition to `key`.  Each iteration consumes at least one
byte, so fuel `wal.length + 1` is sufficient. -/
def walGo (wal : List Nat) :
    Nat → Nat → List (List Nat × List Nat) → List (List Char) →
    Except Err (List (List Nat × List Nat) × List (List Char))
  | 0, _, _, _ => .error .eof
  | fuel + 1, offset, mem, inc =>
    match readExactAt wal offset 1 with
    | none => .ok (mem, inc)
    | some tagB =>
      let tag := tagB.headD 0
      if tag = 0 then
        match readVecE wal (offset + 1) with
        | .error e => .error e
        | .ok (key, o2) =>
          match readVecE wal o2 with
          | .error e => .error e
          | .ok (value, o3) => walGo wal fuel o3 (memPut mem key value) inc
      else if tag = 1 then
        match readVecE wal (offset + 1) with
        | .error e => .error e
        | .ok (key, o2) => walGo wal fuel o2 (memDelete mem key).1 inc
      else if tag = 2 then
        match readVecE wal (offset + 1) with
        | .error e => .error e
        | .ok (_, o2) =>
          match readVecE wal o2 with
          | .error e => .error e
          | .ok (nameB, o3) =>
            match bytesToName nameB with
            | none => .error (.invalid "Invalid table name in WAL")
            | some name => walGo wal fuel o3 mem (incInsert inc name)
      else if tag = 3 then
        match readVecE wal (offset + 1) with
        | .error e => .error e
        | .ok (_, o2) =>
          match readVecE wal o2 with
          | .error e => .error e
          | .ok (nameB, o3) =>
            match bytesToName nameB with
            | none => .error (.invalid "Invalid table name in WAL")
            | some name => walGo wal fuel o3 mem (incErase inc name)
      else .error (.invalid "Invalid WAL entry type")

/-- Full WAL replay from offset 0 with a fresh memtable and empty
`incomplete_sstables` set. -/
def walReplay (wal : List Nat) :
    Except Err (List (List Nat × List Nat) × List (List Char)) :=
  walGo wal (wal.length + 1) 0 [] []

/-! ### Database model

Storage is an association list of blob name to contents; `Storage::list`
yields the names in list order (a directory backend promises no particular
order).  An `SSTableReader` holds its blob name (standing for the open file
handle) plus the cached entry count.  The WAL appender carries the appended
bytes and a plan of future append outcomes (`[]` means every append
succeeds); a failed append leaves the data unchanged, modelling
`Append::append` returning an `Err`. -/

/-- Model of an open `SSTableReader`: the blob it reads from and the cached
entry count. -/
structure SSTR : Type where
  name : List Char
  size : Nat
  deriving DecidableEq

/-- Model of the WAL `Append` handle. -/
structure Appender : Type where
  data : List Nat
  plan : List Bool
  deriving DecidableEq

/-- One `Append::append` call. -/
def Appender.append (a : Appender) (buf : List Nat) : Except Unit Unit × Appender :=
  match a.plan with
  | [] => (.ok (), { a with data := a.data ++ buf })
  | b :: rest =>
    if b then (.ok (), ⟨a.data ++ buf, rest⟩)
    else (.error (), { a with plan := rest })

/-- `Append::truncate` (always succeeds in the model). -/
def Appender.truncate (a : Appender) : Appender := { a with data := [] }

/-- `write_vec`: append the 4-byte length prefix, then the payload. -/
def writeVecA (a : Appender) (buf : List Nat) : Except Unit Unit × Appender :=
  match a.append (u32be buf.length) with
  | (.error e, a1) => (.error e, a1)
  | (.ok _, a1) => a1.append buf

/-- The database state: `Database { storage, sstables, mem_table, wal }`. -/
structure DB : Type where
  storage : List (List Char × List Nat)
  sstables : List ((Nat × Nat) × SSTR)
  mem_table : List (List Nat × List Nat)
  wal : Appender
  deriving DecidableEq

/-- `Storage::read`-style lookup. -/
def storageLookup (s : List (List Char × List Nat)) (n : List Char) :
    Option (List Nat) :=
  match s.find? (fun e => e.1 = n) with
  | none => none
  | some e => some e.2

/-- `Storage::write`: create or replace a blob. -/
def storageWrite (s : List (List Char × List Nat)) (n : List Char) (v : List Nat) :
    List (List Char × List Nat) :=
  if s.any (fun e => e.1 = n) then
    s.map (fun e => if e.1 = n then (n, v) else e)
  else s ++ [(n, v)]

/-- `Storage::delete` (absence tolerated). -/
def storageDelete (s : List (List Char × List Nat)) (n : List Char) :
    List (List Char × List Nat) :=
  s.filter (fun e => e.1 ≠ n)

/-- The blob name `"wal"`. -/
def walName : List Char := ['w', 'a', 'l']

/-- Suffix test `entry.ends_with(".sst")`. -/
def endsWithSst (n : List Char) : Bool :=
  decide (4 ≤ n.length) && decide (n.drop (n.length - 4) = ".sst".toList)

/-- The listing loop of `Database::open`: flag the WAL, collect `.sst`
candidates in listing order, and reject any other name. -/
def classifyNames : Bool → List (List Char) → List (List Char) →
    Except Err (Bool × List (List Char))
  | found, acc, [] => .ok (found, acc)
  | found, acc, n :: rest =>
    if n = walName then classifyNames true acc rest
    else if endsWithSst n then classifyNames found (acc ++ [n]) rest
    else .error (.invalid "Unexpected file in storage")

/-- The sstable-opening loop of `Database::open`: skip names still in
`incomplete`, read the blob, read the entry count, parse the name. -/
def openTables (storage : List (List Char × List Nat)) (inc : List (List Char)) :
    List (List Char) → Except Err (List ((Nat × Nat) × SSTR))
  | [] => .ok []
  | n :: rest =>
    if n ∈ inc then openTables storage inc rest
    else
      match storageLookup storage n with
      | none => .error .notFound
      | some file =>
        match sstOpen file with
        | none => .error .eof
        | some sz =>
          match parseSstableName n with
          | none => .error (.invalid "Invalid sstable name")
          | some lid =>
            match openTables storage inc rest with
            | .error e => .error e
            | .ok r => .ok ((lid, ⟨n, sz⟩) :: r)

/-- `Database::open`.  `plan` is the failure plan of the WAL appender handed
to the resulting database (the Rust `open` takes only the storage; the plan
is an artifact of the abstract `Append` model). -/
def dbOpen (storage : List (List Char × List Nat)) (plan : List Bool) :
    Except Err DB :=
  match classifyNames false [] (storage.map Prod.fst) with
  | .error e => .error e
  | .ok (walFound, sstNames) =>
    if ¬walFound ∧ sstNames ≠ [] then .error (.invalid "Missing wal")
    else if ¬walFound then
      .ok ⟨storage, [], [], ⟨[], plan⟩⟩
    else
      match storageLookup storage walName with
      | none => .error .notFound
      | some walBytes =>
        match walReplay walBytes with
        | .error e => .error e
        | .ok (mem, inc) =>
          let storage' := inc.foldl (fun s n => storageDelete s n) storage
          match openTables storage' inc sstNames with
          | .error e => .error e
          | .ok sstables => .ok ⟨storage', sstables, mem, ⟨walBytes, plan⟩⟩

/-- `Database::put`: WAL record first (tag 0, key, value), memtable second.
Returns the call result together with the post-call state. -/
def dbPut (db : DB) (k v : List Nat) : Except Unit Unit × DB :=
  match db.wal.append [0] with
  | (.error e, w1) => (.error e, { db with wal := w1 })
  | (.ok _, w1) =>
    match writeVecA w1 k with
    | (.error e, w2) => (.error e, { db with wal := w2 })
    | (.ok _, w2) =>
      match writeVecA w2 v with
      | (.error e, w3) => (.error e, { db with wal := w3 })
      | (.ok _, w3) =>
        (.ok (), { db with wal := w3, mem_table := memPut db.mem_table k v })

/-- `Database::delete`: WAL record first (tag 1, key), memtable second. -/
def dbDelete (db : DB) (k : List Nat) : Except Unit Unit × DB :=
  match db.wal.append [1] with
  | (.error e, w1) => (.error e, { db with wal := w1 })
  | (.ok _, w1) =>
    match writeVecA w1 k with
    | (.error e, w2) => (.error e, { db with wal := w2 })
    | (.ok _, w2) =>
      (.ok (), { db with wal := w2, mem_table := (memDelete db.mem_table k).1 })

/-- The sstable scan of `Database::get` (already-reversed list; first hit
wins). -/
def scanTables (storage : List (List Char × List Nat)) (k : List Nat) :
    List ((Nat × Nat) × SSTR) → Except Err (Option (List Nat))
  | [] => .ok none
  | (_, r) :: rest =>
    match storageLookup storage r.name with
    | none => .error .notFound
    | some file =>
      match sstTableGet file r.size k with
      | none => .error .eof
      | some (some v) => .ok (some v)
      | some none => scanTables storage k rest

/-- `Database::get`: memtable first, then sstables in reverse registration
order. -/
def dbGet (db : DB) (k : List Nat) : Except Err (Option (List Nat)) :=
  match memGet db.mem_table k with
  | some v => .ok (some v)
  | none => scanTables db.storage k db.sstables.reverse

/-- Rust tuple ordering test `(level, id) > (l, i)` used by the
`partition_point` call in `maintain`. -/
def pairGt (a b : Nat × Nat) : Bool :=
  if b.1 < a.1 then true
  else if a.1 = b.1 then decide (b.2 < a.2)
  else false

/-- The `new_id` selection loop of `Database::maintain`: scan the registry and
bump past ids found at level 0 (note: level 0, though the new table is
named and registered at level 1). -/
def newIdFor (sstables : List ((Nat × Nat) × SSTR)) : Nat :=
  sstables.foldl
    (fun acc e => if e.1.1 = 0 then (if acc ≤ e.1.2 then e.1.2 + 1 else acc) else acc) 0

/-- The name `1-<id>.sst` built by `maintain`. -/
def sstName (id : Nat) : List Char :=
  '1' :: '-' :: (natDigits id ++ ".sst".toList)

/-- Default registry element for `partition_point`'s out-of-range reads
(never used in bounds). -/
def dfltReg : (Nat × Nat) × SSTR := ((0, 0), ⟨[], 0⟩)

/-- `Database::maintain`: pick `new_id`, WAL-log `WriteSstableStart`, write
the serialized memtable, WAL-log `WriteSstableEnd`, open the new table,
insert it at the `partition_point` position, and truncate the WAL. -/
def dbMaintain (db : DB) : Except Unit Unit × DB :=
  let newId := newIdFor db.sstables
  let nameC := sstName newId
  let nameB := nameC.map Char.toNat
  match db.wal.append [2] with
  | (.error e, w1) => (.error e, { db with wal := w1 })
  | (.ok _, w1) =>
    match writeVecA w1 nameB with
    | (.error e, w2) => (.error e, { db with wal := w2 })
    | (.ok _, w2) =>
      let buf := writeSstable db.mem_table
      let storage' := storageWrite db.storage nameC buf
      match w2.append [3] with
      | (.error e, w3) => (.error e, { db with storage := storage', wal := w3 })
      | (.ok _, w3) =>
        match writeVecA w3 nameB with
        | (.error e, w4) => (.error e, { db with storage := storage', wal := w4 })
        | (.ok _, w4) =>
          match storageLookup storage' nameC with
          | none => (.error (), { db with storage := storage', wal := w4 })
          | some file =>
            match sstOpen file with
            | none => (.error (), { db with storage := storage', wal := w4 })
            | some sz =>
              let index := partitionPoint dfltReg (fun e => pairGt e.1 (1, newId)) db.sstables
              let sstables' := insertAt index ((1, newId), ⟨nameC, sz⟩) db.sstables
              (.ok (), ⟨storage', sstables', db.mem_table, w4.truncate⟩)

/-- `RangeIterator::next` is `todo!()`: every call diverges with a panic,
modelled as an error. -/
def rangeIterNext (db : DB) (keyStart keyEnd : List Nat) :
    Except Unit (Option (List Nat × List Nat)) :=
  .error ()

/-- Abstract put/delete operations for driving the database. -/
inductive Op : Type
  | put : List Nat → List Nat → Op
  | del : List Nat → Op

/-- Run a sequence of operations, keeping the state regardless of the
per-call results (with an all-success plan every call succeeds). -/
def applyOps (db : DB) : List Op → DB
  | [] => db
  | .put k v :: rest => applyOps (dbPut db k v).2 rest
  | .del k :: rest => applyOps (dbDelete db k).2 rest

/-- A freshly opened empty database (`dbOpen` on empty storage with an
all-success plan). -/
def emptyDB : DB := ⟨[], [], [], ⟨[], []⟩⟩

/-! ### Concrete inputs and auxiliary predicates used by the claims -/

/-- Byte string of an ASCII string literal. -/
def strBytes (s : String) : List Nat := s.toList.map Char.toNat

/-- Boolean test that a list of `(level, id)` pairs is sorted ascending in
the tuple order. -/
def ascPairs : List (Nat × Nat) → Bool
  | [] => true
  | [_] => true
  | a :: b :: rest =>
    (if a.1 < b.1 then true else if a.1 = b.1 then decide (a.2 ≤ b.2) else false)
      && ascPairs (b :: rest)

/-- The four entries left in the memtable by scenario S2 of the spec (also
the entry list the repository's own memtable test asserts). -/
def s2entries : List (List Nat × List Nat) :=
  [(strBytes "abc", strBytes "222"), (strBytes "def", strBytes "777"),
   (strBytes "jkl", strBytes "666"), (strBytes "mno", strBytes "333")]

/-- The S2 operation sequence:
puts `ghi↦111, abc↦222, mno↦333, ghi↦444, def↦555, jkl↦666, def↦777`,
then `delete ghi`. -/
def s2ops : List Op :=
  [.put (strBytes "ghi") (strBytes "111"), .put (strBytes "abc") (strBytes "222"),
   .put (strBytes "mno") (strBytes "333"), .put (strBytes "ghi") (strBytes "444"),
   .put (strBytes "def") (strBytes "555"), .put (strBytes "jkl") (strBytes "666"),
   .put (strBytes "def") (strBytes "777"), .del (strBytes "ghi")]

/-- Storage holding one (empty) level-0 table `0-0.sst` plus an empty WAL: a
valid database layout per the name grammar. -/
def storageL0 : List (List Char × List Nat) :=
  [("0-0.sst".toList, writeSstable []), (walName, [])]

/-- The WAL bytes `maintain` writes for `WriteSstableStart("1-0.sst")`:
the tag byte `2` followed by one length-prefixed name (see
`Database::maintain`: `wal.append(&[2])` then `write_vec(name)`). -/
def c4walWriterSide : List Nat :=
  [2] ++ u32be 7 ++ (sstName 0).map Char.toNat

/-- The same record in the shape `Database::open`'s replay loop actually
expects: tag `2`, a length-prefixed `key`, then the length-prefixed name. -/
def c4walReaderSide : List Nat :=
  [2] ++ u32be 0 ++ (u32be 7 ++ (sstName 0).map Char.toNat)

/-- Storage for the S6 crash scenario: a garbage blob `1-0.sst` plus a WAL
recording only the start of its flush (writer-side encoding). -/
def c4storage : List (List Char × List Nat) :=
  [(sstName 0, [1, 2, 3]), (walName, c4walWriterSide)]

/-- Same scenario, with the WAL record in the replay loop's own grammar. -/
def c4storageReaderSide : List (List Char × List Nat) :=
  [(sstName 0, [1, 2, 3]), (walName, c4walReaderSide)]

/-- Key of entry `i` of an entry list (out of range: the empty key). -/
def entKey (entries : List (List Nat × List Nat)) (i : Nat) : List Nat :=
  (entries.getD i dfltEntry).1

/-- The memtable invariant: entries strictly increasing by key. -/
def SortedKeys (entries : List (List Nat × List Nat)) : Prop :=
  List.Pairwise (fun a b => listCmp a.1 b.1 = .lt) entries

/-- Total serialized payload size of an entry list. -/
def sumSizes : List (List Nat × List Nat) → Nat
  | [] => 0
  | e :: rest => esize e + sumSizes rest

/-- Size bounds under which the sstable image is read back exactly: entry
count and per-entry lengths below `2^32`, and the whole image below `2^64`
(no `u32`/`u64` cast truncates). -/
def entriesWF (entries : List (List Nat × List Nat)) : Prop :=
  entries.length < U32 ∧
  (∀ e ∈ entries, e.1.length < U32 ∧ e.2.length < U32) ∧
  4 + 8 * entries.length + sumSizes entries < U64

/-! ### WAL record grammar (as read by the replay loop)

`walGo` reads: a tag byte, one length-prefixed `key`, then for `Put` a
length-prefixed value and for `WriteSstableStart`/`End` a length-prefixed
table name.  `WalRecord`/`encodeRecord` spell out exactly the byte shapes
the loop consumes. -/

/-- One WAL record in the replay loop's grammar. -/
inductive WalRecord : Type
  | put : List Nat → List Nat → WalRecord
  | del : List Nat → WalRecord
  | sstStart : List Nat → List Nat → WalRecord
  | sstEnd : List Nat → List Nat → WalRecord

/-- A length-prefixed byte string. -/
def vecBytes (b : List Nat) : List Nat := u32be b.length ++ b

/-- Byte encoding of one record. -/
def encodeRecord : WalRecord → List Nat
  | .put k v => 0 :: (vecBytes k ++ vecBytes v)
  | .del k => 1 :: vecBytes k
  | .sstStart k n => 2 :: (vecBytes k ++ vecBytes n)
  | .sstEnd k n => 3 :: (vecBytes k ++ vecBytes n)

/-- Well-formedness of a record: lengths fit their `u32` prefixes and table
names pass the ASCII check. -/
def recordWF : WalRecord → Prop
  | .put k v => k.length < U32 ∧ v.length < U32
  | .del k => k.length < U32
  | .sstStart k n => k.length < U32 ∧ n.length < U32 ∧ ∀ b ∈ n, b < 128
  | .sstEnd k n => k.length < U32 ∧ n.length < U32 ∧ ∀ b ∈ n, b < 128

/-- Byte encoding of a record sequence. -/
def encodeWal : List WalRecord → List Nat
  | [] => []
  | r :: rs => encodeRecord r ++ encodeWal rs

/-- `p` is a prefix of `full` with `t` the (possibly empty) remainder;
`properPre` additionally requires a nonempty remainder. -/
def properPre (p full : List Nat) : Prop :=
  ∃ t, t ≠ [] ∧ p ++ t = full

/-- Effect of one replayed record on the memtable. -/
def stepMem (r : WalRecord) (mem : List (List Nat × List Nat)) :
    List (List Nat × List Nat) :=
  match r with
  | .put k v => memPut mem k v
  | .del k => (memDelete mem k).1
  | .sstStart _ _ => mem
  | .sstEnd _ _ => mem

/-- Effect of one replayed record on the `incomplete_sstables` set. -/
def stepInc (r : WalRecord) (inc : List (List Char)) : List (List Char) :=
  match r with
  | .put _ _ => inc
  | .del _ => inc
  | .sstStart _ n => incInsert inc (n.map Char.ofNat)
  | .sstEnd _ n => incErase inc (n.map Char.ofNat)

/-- Replay state after a record sequence. -/
def runRecords (mem : List (List Nat × List Nat)) (inc : List (List Char)) :
    List WalRecord → List (List Nat × List Nat) × List (List Char)
  | [] => (mem, inc)
  | r :: rs => runRecords (stepMem r mem) (stepInc r inc) rs

/-! ### Grammar of accepted `parse_sstable_name` fields -/

/-- Shape of a field accepted by Rust's `u32` parsing: a nonempty digit run,
optionally preceded by `+`, with value `v` below `2^32`. -/
def fieldOk (A : List Char) (v : Nat) : Prop :=
  ∃ ds, (A = ds ∨ A = '+' :: ds) ∧ ds ≠ [] ∧ ds.all Char.isDigit ∧
    digitsVal ds = v ∧ v < U32

/-- The canonical name `format!("{level}-{id}.sst")`. -/
def canonName (level id : Nat) : List Char :=
  natDigits level ++ '-' :: (natDigits id ++ ".sst".toList)

/-- Decidable equality for `Except`, used by `decide`-based evaluations. -/
instance {ε α : Type} [DecidableEq ε] [DecidableEq α] : DecidableEq (Except ε α) := fun
  | .ok a, .ok b =>
    if h : a = b then .isTrue (by rw [h])
    else .isFalse (by intro hc; cases hc; exact h rfl)
  | .ok _, .error _ => .isFalse (by intro h; cases h)
  | .error _, .ok _ => .isFalse (by intro h; cases h)
  | .error a, .error b =>
    if h : a = b then .isTrue (by rw [h])
    else .isFalse (by intro hc; cases hc; exact h rfl)

/-! ## Theorems -/

/-! ### Order lemmas for the byte-string comparison -/

theorem listCmp_eq_iff (a : List Nat) : ∀ b, listCmp a b = .eq ↔ a = b := by
  induction a with
  | nil => intro b; cases b <;> simp [listCmp]
  | cons x xs ih =>
    intro b
    cases b with
    | nil => simp [listCmp]
    | cons y ys =>
      simp only [listCmp]
      rcases Nat.lt_trichotomy x y with h | h | h
      · rw [if_pos h]
        constructor
        · intro hc; exact absurd hc (by decide)
        · intro hc; injection hc with h1 _; omega
      · subst h
        rw [if_neg (by omega), if_neg (by omega)]
        rw [ih ys]
        constructor
        · intro hc; rw [hc]
        · intro hc; injection hc
      · rw [if_neg (by omega), if_pos h]
        constructor
        · intro hc; exact absurd hc (by decide)
        · intro hc; injection hc with h1 _; omega

theorem listCmp_swap (a : List Nat) : ∀ b, listCmp a b = .lt ↔ listCmp b a = .gt := by
  induction a with
  | nil => intro b; cases b <;> simp [listCmp]
  | cons x xs ih =>
    intro b
    cases b with
    | nil => simp [listCmp]
    | cons y ys =>
      simp only [listCmp]
      rcases Nat.lt_trichotomy x y with h | h | h
      · rw [if_pos h, if_neg (by omega), if_pos h]
        simp
      · subst h
        rw [if_neg (by omega), if_neg (by omega), if_neg (by omega), if_neg (by omega)]
        exact ih ys
      · rw [if_neg (by omega), if_pos h, if_pos h]
        constructor
        · intro hc; exact absurd hc (by decide)
        · intro hc; exact absurd hc (by decide)

theorem listCmp_trans (a : List Nat) :
    ∀ b c, listCmp a b = .lt → listCmp b c = .lt → listCmp a c = .lt := by
  induction a with
  | nil =>
    intro b c hab hbc
    cases c with
    | nil =>
      cases b with
      | nil => exact hab
      | cons y ys => exact absurd hbc (by simp [listCmp])
    | cons z zs => simp [listCmp]
  | cons x xs ih =>
    intro b c hab hbc
    cases b with
    | nil => exact absurd hab (by simp [listCmp])
    | cons y ys =>
      cases c with
      | nil => exact absurd hbc (by simp [listCmp])
      | cons z zs =>
        simp only [listCmp] at hab hbc ⊢
        rcases Nat.lt_trichotomy x y with h1 | h1 | h1
        · rcases Nat.lt_trichotomy y z with h2 | h2 | h2
          · rw [if_pos (by omega)]
          · subst h2; rw [if_pos h1]
          · rw [if_neg (by omega), if_pos h2] at hbc
            exact absurd hbc (by decide)
        · subst h1
          rcases Nat.lt_trichotomy x z with h2 | h2 | h2
          · rw [if_pos h2]
          · subst h2
            rw [if_neg (by omega), if_neg (by omega)] at hab hbc ⊢
            exact ih _ _ hab hbc
          · rw [if_neg (by omega), if_pos h2] at hbc
            exact absurd hbc (by decide)
        · rw [if_neg (by omega), if_pos h1] at hab
          exact absurd hab (by decide)

/-! ### Correctness of the Rust binary search on split comparisons

Given a comparison function `g` that is `.lt` strictly below `lo`, `.eq` on
`[lo, hi)` (at most one index) and `.gt` from `hi` on, the search finds `lo`
when the window `[lo, hi)` is nonempty and otherwise reports insertion point
`lo`. -/

theorem bsGo_spec (g : Nat → Ordering) (n lo hi : Nat)
    (hlh : lo ≤ hi) (hsep : hi ≤ lo + 1)
    (hlt : ∀ i, i < lo → g i = .lt)
    (heq : ∀ i, lo ≤ i → i < hi → g i = .eq)
    (hgt : ∀ i, hi ≤ i → i < n → g i = .gt) :
    ∀ fuel base size, 1 ≤ size → base + size ≤ n → size ≤ fuel → base ≤ lo →
      (lo < hi → lo < base + size) → (hi ≤ lo → lo ≤ base + size) →
      (lo < hi → bsGo g fuel base size = lo) ∧
      (hi ≤ lo →
        (bsGo g fuel base size = lo ∧ lo < n) ∨ bsGo g fuel base size + 1 = lo) := by
  intro fuel
  induction fuel with
  | zero => intro base size h1 h2 h3 _ _ _; omega
  | succ f ih =>
    intro base size h1 h2 h3 hbl hp ha
    by_cases hs : 1 < size
    · rw [bsGo, if_pos hs]
      have hmidn : base + size / 2 < n := by omega
      by_cases hg : g (base + size / 2) = .gt
      · rw [if_pos hg]
        have hmid_hi : hi ≤ base + size / 2 := by
          by_contra hc
          push_neg at hc
          rcases Nat.lt_or_ge (base + size / 2) lo with h | h
          · rw [hlt _ h] at hg; exact absurd hg (by decide)
          · rw [heq _ h hc] at hg; exact absurd hg (by decide)
        exact ih base (size - size / 2) (by omega) (by omega) (by omega) hbl
          (fun h => by have := hp h; omega) (fun h => by omega)
      · rw [if_neg hg]
        have hmle : base + size / 2 ≤ lo := by
          rcases ho : g (base + size / 2) with _ | _ | _
          · by_contra hc
            push_neg at hc
            rcases Nat.lt_or_ge (base + size / 2) hi with h | h
            · rw [heq _ (by omega) h] at ho; exact absurd ho (by decide)
            · rw [hgt _ h hmidn] at ho; exact absurd ho (by decide)
          · by_contra hc
            push_neg at hc
            rcases Nat.lt_or_ge (base + size / 2) hi with h | h
            · omega
            · rw [hgt _ h hmidn] at ho; exact absurd ho (by decide)
          · exact absurd ho hg
        exact ih (base + size / 2) (size - size / 2) (by omega) (by omega)
          (by omega) hmle (fun h => by have := hp h; omega)
          (fun h => by have := ha h; omega)
    · rw [bsGo, if_neg hs]
      have hsz : size = 1 := by omega
      refine ⟨fun hph => by have := hp hph; omega, fun hah => ?_⟩
      have := ha hah
      rcases Nat.eq_or_lt_of_le hbl with h | h
      · exact Or.inl ⟨h, by omega⟩
      · exact Or.inr (by omega)

theorem rustBinarySearch_split (g : Nat → Ordering) (n lo hi : Nat)
    (hlh : lo ≤ hi) (hhn : hi ≤ n) (hsep : hi ≤ lo + 1)
    (hlt : ∀ i, i < lo → g i = .lt)
    (heq : ∀ i, lo ≤ i → i < hi → g i = .eq)
    (hgt : ∀ i, hi ≤ i → i < n → g i = .gt) :
    rustBinarySearch g n = if lo < hi then .ok lo else .error lo := by
  by_cases hn : n = 0
  · subst hn
    have hlo : lo = 0 := by omega
    rw [rustBinarySearch, if_pos rfl, if_neg (by omega), hlo]
  · have hmain := bsGo_spec g n lo hi hlh hsep hlt heq hgt n 0 n (by omega)
      (by omega) (le_refl n) (by omega) (fun h => by omega) (fun _ => by omega)
    rw [rustBinarySearch, if_neg hn]
    by_cases hfound : lo < hi
    · rw [if_pos hfound]
      rw [hmain.1 hfound, heq lo (le_refl lo) hfound]
    · rw [if_neg hfound]
      rcases hmain.2 (by omega) with ⟨hb, hlon⟩ | hb
      · rw [hb, hgt lo (by omega) hlon]
      · have hblt : bsGo g n 0 n < lo := by omega
        rw [hlt _ hblt, hb]

/-! ### Memtable correctness on sorted entries -/

theorem getD_eq_getElem {α : Type} (l : List α) (i : Nat) (d : α)
    (h : i < l.length) : l.getD i d = l[i] := by
  rw [List.getD_eq_getElem?_getD, List.getElem?_eq_getElem h]
  rfl

theorem getD_mem {α : Type} (l : List α) (i : Nat) (d : α) (h : i < l.length) :
    l.getD i d ∈ l := by
  rw [getD_eq_getElem l i d h]
  exact List.getElem_mem h

theorem entKey_cons_zero (e : List Nat × List Nat) (rest : List (List Nat × List Nat)) :
    entKey (e :: rest) 0 = e.1 := rfl

theorem entKey_cons_succ (e : List Nat × List Nat) (rest : List (List Nat × List Nat))
    (j : Nat) : entKey (e :: rest) (j + 1) = entKey rest j := by
  simp [entKey, List.getD_cons_succ]

/-- Splitting a strictly-sorted entry list around a search key: there are
`lo` keys below `k`, at most one key equal to `k` (present iff `lo < hi`),
and all keys from `hi` on are above `k`. -/
theorem sorted_split (entries : List (List Nat × List Nat)) (k : List Nat)
    (hs : SortedKeys entries) :
    ∃ lo hi, lo ≤ hi ∧ hi ≤ entries.length ∧ hi ≤ lo + 1 ∧
      (∀ i, i < lo → listCmp (entKey entries i) k = .lt) ∧
      (∀ i, lo ≤ i → i < hi → listCmp (entKey entries i) k = .eq) ∧
      (∀ i, hi ≤ i → i < entries.length → listCmp (entKey entries i) k = .gt) ∧
      (k ∈ entries.map Prod.fst ↔ lo < hi) := by
  induction entries with
  | nil =>
    exact ⟨0, 0, le_refl 0, by simp, by omega, fun i h => by omega,
      fun i h1 h2 => by omega, fun i h1 h2 => by simp at h2, by simp⟩
  | cons e rest ih =>
    have hhead : ∀ b ∈ rest, listCmp e.1 b.1 = .lt := (List.pairwise_cons.mp hs).1
    have hrest : SortedKeys rest := (List.pairwise_cons.mp hs).2
    obtain ⟨lo, hi, h1, h2, h3, hl, he, hg, hm⟩ := ih hrest
    rcases hc : listCmp e.1 k with _ | _ | _
    · -- head key below k
      refine ⟨lo + 1, hi + 1, by omega, by simp only [List.length_cons]; omega,
        by omega, ?_, ?_, ?_, ?_⟩
      · intro i hi0
        cases i with
        | zero => exact hc
        | succ j => rw [entKey_cons_succ]; exact hl j (by omega)
      · intro i hi1 hi2
        cases i with
        | zero => omega
        | succ j => rw [entKey_cons_succ]; exact he j (by omega) (by omega)
      · intro i hi1 hi2
        cases i with
        | zero => omega
        | succ j =>
          rw [entKey_cons_succ]
          exact hg j (by omega) (by simpa using hi2)
      · simp only [List.map_cons, List.mem_cons]
        constructor
        · intro hmem
          rcases hmem with h | h
          · exfalso
            rw [← h, (listCmp_eq_iff k k).mpr rfl] at hc
            exact absurd hc (by decide)
          · have := hm.mp h; omega
        · intro h
          exact Or.inr (hm.mpr (by omega))
    · -- head key equals k
      have hek : e.1 = k := (listCmp_eq_iff e.1 k).mp hc
      refine ⟨0, 1, by omega, by simp, by omega, fun i h => by omega, ?_, ?_, ?_⟩
      · intro i h1 h2
        have : i = 0 := by omega
        subst this
        exact hc
      · intro i h1 h2
        cases i with
        | zero => omega
        | succ j =>
          rw [entKey_cons_succ]
          have hj : j < rest.length := by simpa using h2
          have hmem := getD_mem rest j dfltEntry hj
          have hlt' := hhead _ hmem
          rw [hek] at hlt'
          exact (listCmp_swap k (entKey rest j)).mp hlt'
      · simp [hek]
    · -- head key above k
      refine ⟨0, 0, le_refl 0, by omega, by omega, fun i h => by omega,
        fun i h1 h2 => by omega, ?_, ?_⟩
      · intro i h1 h2
        cases i with
        | zero => exact hc
        | succ j =>
          rw [entKey_cons_succ]
          have hj : j < rest.length := by simpa using h2
          have hmem := getD_mem rest j dfltEntry hj
          have hk1 : listCmp k e.1 = .lt := (listCmp_swap k e.1).mpr hc
          have hk2 : listCmp k (entKey rest j) = .lt :=
            listCmp_trans k e.1 (entKey rest j) hk1 (hhead _ hmem)
          exact (listCmp_swap k (entKey rest j)).mp hk2
      · simp only [List.map_cons, List.mem_cons]
        constructor
        · intro hmem
          exfalso
          rcases hmem with h | h
          · rw [← h, (listCmp_eq_iff k k).mpr rfl] at hc
            exact absurd hc (by decide)
          · obtain ⟨a, ha, hak⟩ := List.mem_map.mp h
            have := hhead a ha
            rw [hak] at this
            rw [this] at hc
            exact absurd hc (by decide)
        · intro h; omega

/-- The memtable binary search, characterized on a sorted entry list. -/
theorem memSearch_split (entries : List (List Nat × List Nat)) (k : List Nat)
    (hs : SortedKeys entries) :
    ∃ lo hi, lo ≤ hi ∧ hi ≤ entries.length ∧ hi ≤ lo + 1 ∧
      (∀ i, i < lo → listCmp (entKey entries i) k = .lt) ∧
      (∀ i, lo ≤ i → i < hi → listCmp (entKey entries i) k = .eq) ∧
      (∀ i, hi ≤ i → i < entries.length → listCmp (entKey entries i) k = .gt) ∧
      (k ∈ entries.map Prod.fst ↔ lo < hi) ∧
      memSearch entries k = if lo < hi then .ok lo else .error lo := by
  obtain ⟨lo, hi, h1, h2, h3, hl, he, hg, hm⟩ := sorted_split entries k hs
  exact ⟨lo, hi, h1, h2, h3, hl, he, hg, hm,
    rustBinarySearch_split _ entries.length lo hi h1 h2 h3 hl he hg⟩

/-- On a sorted memtable, `get` returns `None` exactly for absent keys. -/
theorem memGet_none_iff (entries : List (List Nat × List Nat)) (k : List Nat)
    (hs : SortedKeys entries) :
    memGet entries k = none ↔ k ∉ entries.map Prod.fst := by
  obtain ⟨lo, hi, _, _, _, _, _, _, hm, hsearch⟩ := memSearch_split entries k hs
  unfold memGet
  rw [hsearch]
  by_cases h : lo < hi
  · rw [if_pos h]
    exact iff_of_false (by simp) (fun hc => hc (hm.mpr h))
  · rw [if_neg h]
    exact ⟨fun _ hc => h (hm.mp hc), fun _ => rfl⟩

/-- Replacing the value at a found index keeps the keys, hence sortedness. -/
theorem sortedKeys_set (entries : List (List Nat × List Nat)) (i : Nat)
    (v : List Nat) (hs : SortedKeys entries) :
    SortedKeys (entries.set i ((entries.getD i dfltEntry).1, v)) := by
  induction entries generalizing i with
  | nil => simp [SortedKeys]
  | cons e rest ih =>
    have hhead : ∀ b ∈ rest, listCmp e.1 b.1 = .lt := (List.pairwise_cons.mp hs).1
    have hrest : SortedKeys rest := (List.pairwise_cons.mp hs).2
    cases i with
    | zero =>
      simp only [List.getD_cons_zero, List.set]
      exact List.pairwise_cons.mpr ⟨fun b hb => hhead b hb, hrest⟩
    | succ j =>
      simp only [List.getD_cons_succ, List.set]
      refine List.pairwise_cons.mpr ⟨?_, ih j hrest⟩
      intro b hb
      rcases List.mem_or_eq_of_mem_set hb with h | h
      · exact hhead b h
      · subst h
        by_cases hj : j < rest.length
        · exact hhead (rest.getD j dfltEntry) (getD_mem rest j dfltEntry hj)
        · rw [List.set_eq_of_length_le (by omega)] at hb
          exact hhead _ hb

/-- `MemTable::put` preserves strict key sortedness. -/
theorem sortedKeys_memPut (entries : List (List Nat × List Nat)) (k v : List Nat)
    (hs : SortedKeys entries) : SortedKeys (memPut entries k v) := by
  obtain ⟨lo, hi, h1, h2, h3, hl, he, hg, hm, hsearch⟩ := memSearch_split entries k hs
  unfold memPut
  rw [hsearch]
  by_cases h : lo < hi
  · rw [if_pos h]
    exact sortedKeys_set entries lo v hs
  · rw [if_neg h]
    unfold SortedKeys insertAt
    refine List.pairwise_append.mpr
      ⟨List.Pairwise.sublist (List.take_sublist lo entries) hs, ?_, ?_⟩
    · refine List.pairwise_cons.mpr
        ⟨?_, List.Pairwise.sublist (List.drop_sublist lo entries) hs⟩
      intro b hb
      obtain ⟨m, hmlt, hbm⟩ := List.mem_iff_getElem.mp hb
      rw [List.getElem_drop] at hbm
      have hdl : (List.drop lo entries).length = entries.length - lo :=
        List.length_drop lo entries
      have hLm : lo + m < entries.length := by omega
      have hgt' := hg (lo + m) (by omega) hLm
      rw [entKey, getD_eq_getElem _ _ _ hLm, hbm] at hgt'
      exact (listCmp_swap k b.1).mpr hgt'
    · intro a ha b hb
      obtain ⟨j, hjlt, haj⟩ := List.mem_iff_getElem.mp ha
      rw [List.getElem_take] at haj
      have htl : (List.take lo entries).length = min lo entries.length :=
        List.length_take lo entries
      have hjlo : j < lo := by omega
      have hjlen : j < entries.length := by omega
      have hlt' := hl j hjlo
      rw [entKey, getD_eq_getElem _ _ _ hjlen, haj] at hlt'
      rcases List.mem_cons.mp hb with hbk | hbd
      · subst hbk
        exact hlt'
      · obtain ⟨m, hmlt, hbm⟩ := List.mem_iff_getElem.mp hbd
        rw [List.getElem_drop] at hbm
        have hdl : (List.drop lo entries).length = entries.length - lo :=
          List.length_drop lo entries
        have hLm : lo + m < entries.length := by omega
        have hgt' := hg (lo + m) (by omega) hLm
        rw [entKey, getD_eq_getElem _ _ _ hLm, hbm] at hgt'
        exact listCmp_trans a.1 k b.1 hlt' ((listCmp_swap k b.1).mpr hgt')

/-- `MemTable::delete` preserves strict key sortedness. -/
theorem sortedKeys_memDelete (entries : List (List Nat × List Nat)) (k : List Nat)
    (hs : SortedKeys entries) : SortedKeys (memDelete entries k).1 := by
  unfold memDelete
  rcases hsr : memSearch entries k with i | i
  · exact hs
  · exact List.Pairwise.sublist (List.eraseIdx_sublist entries i) hs

/-! ### Running operation sequences with an all-success WAL plan -/

theorem append_nil_plan (d b : List Nat) :
    Appender.append ⟨d, []⟩ b = (.ok (), ⟨d ++ b, []⟩) := rfl

theorem writeVecA_nil_plan (d b : List Nat) :
    writeVecA ⟨d, []⟩ b = (.ok (), ⟨d ++ u32be b.length ++ b, []⟩) := rfl

/-- `put` with an all-success plan: the WAL receives the framed record and
the memtable receives the put. -/
theorem dbPut_nil_plan (db : DB) (k v : List Nat) (h : db.wal.plan = []) :
    dbPut db k v = (.ok (), { db with
      wal := ⟨db.wal.data ++ [0] ++ u32be k.length ++ k ++ u32be v.length ++ v, []⟩,
      mem_table := memPut db.mem_table k v }) := by
  obtain ⟨st, ss, mt, wd, wp⟩ := db
  simp only [] at h
  subst h
  rfl

/-- `delete` with an all-success plan. -/
theorem dbDelete_nil_plan (db : DB) (k : List Nat) (h : db.wal.plan = []) :
    dbDelete db k = (.ok (), { db with
      wal := ⟨db.wal.data ++ [1] ++ u32be k.length ++ k, []⟩,
      mem_table := (memDelete db.mem_table k).1 }) := by
  obtain ⟨st, ss, mt, wd, wp⟩ := db
  simp only [] at h
  subst h
  rfl

/-- Running any put/delete sequence with an all-success plan never touches
storage or the registry, keeps the plan empty, and preserves memtable
sortedness. -/
theorem applyOps_facts (S : List Op) : ∀ db : DB, db.wal.plan = [] →
    (applyOps db S).storage = db.storage ∧
    (applyOps db S).sstables = db.sstables ∧
    (applyOps db S).wal.plan = [] ∧
    (SortedKeys db.mem_table → SortedKeys (applyOps db S).mem_table) := by
  induction S with
  | nil => intro db h; exact ⟨rfl, rfl, h, id⟩
  | cons op rest ih =>
    intro db h
    cases op with
    | put k v =>
      rw [applyOps, dbPut_nil_plan db k v h]
      obtain ⟨h1, h2, h3, h4⟩ := ih { db with
        wal := ⟨db.wal.data ++ [0] ++ u32be k.length ++ k ++ u32be v.length ++ v, []⟩,
        mem_table := memPut db.mem_table k v } rfl
      exact ⟨h1, h2, h3, fun hs => h4 (sortedKeys_memPut _ _ _ hs)⟩
    | del k =>
      rw [applyOps, dbDelete_nil_plan db k h]
      obtain ⟨h1, h2, h3, h4⟩ := ih { db with
        wal := ⟨db.wal.data ++ [1] ++ u32be k.length ++ k, []⟩,
        mem_table := (memDelete db.mem_table k).1 } rfl
      exact ⟨h1, h2, h3, fun hs => h4 (sortedKeys_memDelete _ _ hs)⟩

/-! ### Reading back the sstable image -/

theorem u32be_length (n : Nat) : (u32be n).length = 4 := rfl

theorem u64be_length (n : Nat) : (u64be n).length = 8 := rfl

theorem decodeU32_u32be (n : Nat) : decodeU32 (u32be n) = n % U32 := by
  simp only [u32be, decodeU32, U32]
  omega

theorem decodeU64_u64be (n : Nat) : decodeU64 (u64be n) = n % U64 := by
  simp only [u64be, decodeU64, U64]
  omega

theorem entryBytes_length (e : List Nat × List Nat) :
    (entryBytes e).length = esize e := by
  simp [entryBytes, esize, u32be_length]
  omega

theorem offsetsBytes_length (es : List (List Nat × List Nat)) :
    ∀ off, (offsetsBytes off es).length = 8 * es.length := by
  induction es with
  | nil => intro off; rfl
  | cons e rest ih =>
    intro off
    simp only [offsetsBytes, List.length_append, u64be_length, ih, List.length_cons]
    omega

theorem payloadBytes_length (es : List (List Nat × List Nat)) :
    (payloadBytes es).length = sumSizes es := by
  induction es with
  | nil => rfl
  | cons e rest ih =>
    simp only [payloadBytes, List.length_append, entryBytes_length, ih, sumSizes]

theorem sumSizes_take_le (es : List (List Nat × List Nat)) :
    ∀ i, sumSizes (es.take i) ≤ sumSizes es := by
  induction es with
  | nil => intro i; simp [sumSizes]
  | cons e rest ih =>
    intro i
    cases i with
    | zero => simp [sumSizes]
    | succ j =>
      simp only [List.take, sumSizes]
      have := ih j
      omega

theorem sumSizes_take_entry (es : List (List Nat × List Nat)) :
    ∀ i, i < es.length →
      sumSizes (es.take i) + esize (es.getD i dfltEntry) ≤ sumSizes es := by
  induction es with
  | nil => intro i h; simp at h
  | cons e rest ih =>
    intro i h
    cases i with
    | zero =>
      simp only [List.take, sumSizes, List.getD_cons_zero]
      have := sumSizes_take_le rest 0
      omega
    | succ j =>
      simp only [List.take, sumSizes, List.getD_cons_succ]
      have := ih j (by simpa using h)
      omega

theorem readExactAt_append (pre mid suf : List Nat) :
    readExactAt (pre ++ (mid ++ suf)) pre.length mid.length = some mid := by
  unfold readExactAt
  rw [if_pos (by simp [List.length_append])]
  rw [List.drop_left, List.take_left]

/-- Reading the `i`-th offset-section slot yields the `i`-th running offset. -/
theorem offsRead (es : List (List Nat × List Nat)) :
    ∀ (i off0 : Nat) (pre suf : List Nat), i < es.length →
      readExactAt (pre ++ (offsetsBytes off0 es ++ suf)) (pre.length + 8 * i) 8 =
        some (u64be (off0 + sumSizes (es.take i))) := by
  induction es with
  | nil => intro i _ _ _ h; simp at h
  | cons e rest ih =>
    intro i off0 pre suf h
    cases i with
    | zero =>
      have key := readExactAt_append pre (u64be off0)
        (offsetsBytes (off0 + esize e) rest ++ suf)
      simp only [u64be_length] at key
      simpa [offsetsBytes, List.append_assoc, sumSizes] using key
    | succ j =>
      have key := ih j (off0 + esize e) (pre ++ u64be off0) suf (by simpa using h)
      have harith : (pre ++ u64be off0).length + 8 * j = pre.length + 8 * (j + 1) := by
        simp [List.length_append, u64be_length]
        omega
      rw [harith] at key
      simp only [List.append_assoc] at key
      simpa [offsetsBytes, List.append_assoc, sumSizes, List.take, Nat.add_assoc]
        using key

/-- Reading the key length and key bytes of entry `i` from the payload
section. -/
theorem entryRead (es : List (List Nat × List Nat)) :
    ∀ (i : Nat) (pre suf : List Nat), i < es.length →
      readExactAt (pre ++ (payloadBytes es ++ suf))
          (pre.length + sumSizes (es.take i)) 4 =
        some (u32be (entKey es i).length) ∧
      readExactAt (pre ++ (payloadBytes es ++ suf))
          (pre.length + sumSizes (es.take i) + 4) (entKey es i).length =
        some (entKey es i) := by
  induction es with
  | nil => intro i _ _ h; simp at h
  | cons e rest ih =>
    intro i pre suf h
    cases i with
    | zero =>
      constructor
      · have key := readExactAt_append pre (u32be e.1.length)
          (e.1 ++ (u32be e.2.length ++ (e.2 ++ (payloadBytes rest ++ suf))))
        simp only [u32be_length] at key
        simpa [payloadBytes, entryBytes, entKey, List.append_assoc, sumSizes] using key
      · have key := readExactAt_append (pre ++ u32be e.1.length) e.1
          (u32be e.2.length ++ (e.2 ++ (payloadBytes rest ++ suf)))
        have harith : (pre ++ u32be e.1.length).length = pre.length + 4 := by
          simp [List.length_append, u32be_length]
        rw [harith] at key
        simp only [List.append_assoc] at key
        simpa [payloadBytes, entryBytes, entKey, List.append_assoc, sumSizes] using key
    | succ j =>
      have key := ih j (pre ++ entryBytes e) suf (by simpa using h)
      have harith : (pre ++ entryBytes e).length + sumSizes (rest.take j) =
          pre.length + sumSizes ((e :: rest).take (j + 1)) := by
        simp [List.length_append, entryBytes_length, List.take, sumSizes]
        omega
      rw [harith] at key
      have hkey : entKey rest j = entKey (e :: rest) (j + 1) :=
        (entKey_cons_succ e rest j).symm
      rw [hkey] at key
      simp only [List.append_assoc] at key
      simpa [payloadBytes, List.append_assoc] using key

/-- The three probe reads of `SSTableReader::get`, phrased on the serialized
image. -/
theorem writeSstable_offRead (es : List (List Nat × List Nat)) (i : Nat)
    (h : i < es.length) :
    readExactAt (writeSstable es) (4 + i * 8) 8 =
      some (u64be (sumSizes (es.take i))) := by
  have key := offsRead es i 0 (u32be es.length) (payloadBytes es) h
  simp only [u32be_length, Nat.zero_add] at key
  simpa [writeSstable, List.append_assoc, Nat.mul_comm] using key

theorem writeSstable_keyLenRead (es : List (List Nat × List Nat)) (i : Nat)
    (h : i < es.length) :
    readExactAt (writeSstable es) (4 + es.length * 8 + sumSizes (es.take i)) 4 =
      some (u32be (entKey es i).length) := by
  have key := (entryRead es i (u32be es.length ++ offsetsBytes 0 es) [] h).1
  have harith : (u32be es.length ++ offsetsBytes 0 es).length = 4 + es.length * 8 := by
    simp [List.length_append, u32be_length, offsetsBytes_length]
    omega
  rw [harith] at key
  simpa [writeSstable, List.append_assoc] using key

theorem writeSstable_keyRead (es : List (List Nat × List Nat)) (i : Nat)
    (h : i < es.length) :
    readExactAt (writeSstable es) (4 + es.length * 8 + sumSizes (es.take i) + 4)
        (entKey es i).length = some (entKey es i) := by
  have key := (entryRead es i (u32be es.length ++ offsetsBytes 0 es) [] h).2
  have harith : (u32be es.length ++ offsetsBytes 0 es).length = 4 + es.length * 8 := by
    simp [List.length_append, u32be_length, offsetsBytes_length]
    omega
  rw [harith] at key
  simpa [writeSstable, List.append_assoc] using key

/-- `SSTableReader::open` on a serialized image reads back the entry count. -/
theorem sstOpen_writeSstable (es : List (List Nat × List Nat))
    (h : es.length < U32) : sstOpen (writeSstable es) = some es.length := by
  have key := readExactAt_append [] (u32be es.length)
    (offsetsBytes 0 es ++ payloadBytes es)
  simp only [List.nil_append, List.length_nil, u32be_length] at key
  unfold sstOpen
  rw [show writeSstable es =
    u32be es.length ++ (offsetsBytes 0 es ++ payloadBytes es) by
      simp [writeSstable, List.append_assoc]]
  rw [key]
  simp [decodeU32_u32be, Nat.mod_eq_of_lt h]

theorem entKey_mem_map (es : List (List Nat × List Nat)) (i : Nat)
    (h : i < es.length) : entKey es i ∈ es.map Prod.fst := by
  rw [entKey, getD_eq_getElem _ _ _ h]
  exact List.mem_map.mpr ⟨es[i], List.getElem_mem h, rfl⟩

/-- The on-disk binary search over a well-formed image of entries that do
not contain the key: every probe succeeds, every comparison misses, and the
loop falls through to `None`. -/
theorem sstGetGo_notfound (es : List (List Nat × List Nat)) (k : List Nat)
    (hwf : entriesWF es) (hk : k ∉ es.map Prod.fst) :
    ∀ fuel base size, 1 ≤ size → base + size ≤ es.length → size ≤ fuel →
      sstGetGo (writeSstable es) k es.length fuel base size = some none := by
  obtain ⟨hN, hlen, htot⟩ := hwf
  have hN' : es.length < 4294967296 := hN
  have htot' : 4 + 8 * es.length + sumSizes es < 18446744073709551616 := htot
  intro fuel
  induction fuel with
  | zero => intro base size h1 h2 h3; omega
  | succ f ih =>
    intro base size h1 h2 h3
    rw [sstGetGo]
    by_cases hs : 1 < size
    · rw [if_pos hs]
      have hmid : base + size / 2 < es.length := by omega
      have hS_le := sumSizes_take_le es (base + size / 2)
      have htk := sumSizes_take_entry es (base + size / 2) hmid
      have hesz : esize (es.getD (base + size / 2) dfltEntry) =
          4 + (entKey es (base + size / 2)).length + 4 +
            (es.getD (base + size / 2) dfltEntry).2.length := rfl
      have hkl : (entKey es (base + size / 2)).length < U32 :=
        (hlen _ (getD_mem es (base + size / 2) dfltEntry hmid)).1
      have hkl' : (entKey es (base + size / 2)).length < 4294967296 := hkl
      have a1 : (4 + (base + size / 2) * 8) % U64 = 4 + (base + size / 2) * 8 :=
        Nat.mod_eq_of_lt (by unfold U64; omega)
      have m1 : sumSizes (es.take (base + size / 2)) % U64 =
          sumSizes (es.take (base + size / 2)) :=
        Nat.mod_eq_of_lt (by unfold U64; omega)
      have a2 : (4 + es.length * 8 + sumSizes (es.take (base + size / 2))) % U64 =
          4 + es.length * 8 + sumSizes (es.take (base + size / 2)) :=
        Nat.mod_eq_of_lt (by unfold U64; omega)
      have m2 : (entKey es (base + size / 2)).length % U32 =
          (entKey es (base + size / 2)).length :=
        Nat.mod_eq_of_lt (by unfold U32; omega)
      have a3 : (4 + es.length * 8 + sumSizes (es.take (base + size / 2)) + 4) % U64 =
          4 + es.length * 8 + sumSizes (es.take (base + size / 2)) + 4 :=
        Nat.mod_eq_of_lt (by unfold U64; omega)
      have hne : entKey es (base + size / 2) ≠ k := by
        intro hkk
        exact hk (hkk ▸ entKey_mem_map es (base + size / 2) hmid)
      simp only [a1, writeSstable_offRead es (base + size / 2) hmid,
        decodeU64_u64be, m1, a2, writeSstable_keyLenRead es (base + size / 2) hmid,
        decodeU32_u32be, m2, a3, writeSstable_keyRead es (base + size / 2) hmid,
        if_neg hne]
      by_cases hlex : lexLt (entKey es (base + size / 2)) k = true
      · rw [if_pos hlex]
        exact ih (base + size / 2) (size - size / 2) (by omega) (by omega) (by omega)
      · rw [if_neg hlex]
        exact ih base (size - size / 2) (by omega) (by omega) (by omega)
    · rw [if_neg hs]

/-- `SSTableReader::get` over a freshly written image reports absent keys as
`Ok(None)`. -/
theorem sstTableGet_notfound (es : List (List Nat × List Nat)) (k : List Nat)
    (hwf : entriesWF es) (hk : k ∉ es.map Prod.fst) :
    sstTableGet (writeSstable es) es.length k = some none := by
  unfold sstTableGet
  by_cases hz : es.length = 0
  · rw [if_pos hz]
  · rw [if_neg hz]
    exact sstGetGo_notfound es k hwf hk es.length 0 es.length (by omega) (by omega)
      (le_refl _)

theorem storageLookup_write_self (s : List (List Char × List Nat))
    (n : List Char) (v : List Nat) :
    storageLookup (storageWrite s n v) n = some v := by
  unfold storageWrite
  by_cases h : s.any (fun e => e.1 = n)
  · rw [if_pos h]
    induction s with
    | nil => simp at h
    | cons e rest ih =>
      by_cases he : e.1 = n
      · simp only [List.map_cons, if_pos he, storageLookup]
        rw [List.find?_cons_of_pos _ (by simp)]
      · simp only [List.map_cons, if_neg he, storageLookup]
        rw [List.find?_cons_of_neg _ (by simpa using he)]
        exact ih (by simpa [he] using h)
  · rw [if_neg h]
    induction s with
    | nil =>
      simp only [List.nil_append, storageLookup]
      rw [List.find?_cons_of_pos _ (by simp)]
    | cons e rest ih =>
      have he : ¬ e.1 = n := by
        intro hc
        exact h (by simp [List.any_cons, hc])
      simp only [List.cons_append, storageLookup]
      rw [List.find?_cons_of_neg _ (by simpa using he)]
      exact ih (by intro hc; exact h (by simp [List.any_cons]; exact Or.inr (by simpa using hc)))

/-- `maintain` on a database with empty storage, empty registry and an
all-success plan: it writes `1-0.sst`, registers `(1, 0)` and truncates the
WAL, leaving the memtable alone. -/
theorem dbMaintain_from_scratch (db : DB) (hst : db.storage = [])
    (hss : db.sstables = []) (hpl : db.wal.plan = [])
    (hN : db.mem_table.length < U32) :
    dbMaintain db = (.ok (), ⟨[(sstName 0, writeSstable db.mem_table)],
      [((1, 0), ⟨sstName 0, db.mem_table.length⟩)], db.mem_table, ⟨[], []⟩⟩) := by
  obtain ⟨st, ss, mt, wd, wp⟩ := db
  simp only [] at hst hss hpl hN
  subst hst
  subst hss
  subst hpl
  simp only [dbMaintain, append_nil_plan, writeVecA_nil_plan]
  simp only [storageLookup_write_self, sstOpen_writeSstable mt hN]
  rfl

theorem storageLookup_singleton (n : List Char) (v : List Nat) :
    storageLookup [(n, v)] n = some v := by
  unfold storageLookup
  rw [List.find?_cons_of_pos _ (by simp)]

/-! ### Decimal printing and `u32` parsing lemmas -/

theorem natDigitsGo_append : ∀ fuel n acc, n < fuel →
    natDigitsGo fuel n acc = natDigitsGo fuel n [] ++ acc := by
  intro fuel
  induction fuel with
  | zero => intro n acc h; omega
  | succ f ih =>
    intro n acc h
    by_cases h10 : n < 10
    · rw [natDigitsGo, if_pos h10, natDigitsGo, if_pos h10]
      rfl
    · rw [natDigitsGo, if_neg h10, natDigitsGo, if_neg h10]
      have hf : n / 10 < f := by omega
      rw [ih (n / 10) (digitChar (n % 10) :: acc) hf,
        ih (n / 10) [digitChar (n % 10)] hf]
      simp [List.append_assoc]

theorem natDigitsGo_fuel : ∀ f1 f2 n acc, n < f1 → n < f2 →
    natDigitsGo f1 n acc = natDigitsGo f2 n acc := by
  intro f1
  induction f1 with
  | zero => intro f2 n acc h1 _; omega
  | succ g ih =>
    intro f2 n acc h1 h2
    cases f2 with
    | zero => omega
    | succ g2 =>
      by_cases h10 : n < 10
      · rw [natDigitsGo, if_pos h10, natDigitsGo, if_pos h10]
      · rw [natDigitsGo, if_neg h10, natDigitsGo, if_neg h10]
        exact ih g2 (n / 10) _ (by omega) (by omega)

theorem natDigits_small (n : Nat) (h : n < 10) : natDigits n = [digitChar n] := by
  rw [natDigits, natDigitsGo, if_pos h]

theorem natDigits_step (n : Nat) (h : 10 ≤ n) :
    natDigits n = natDigits (n / 10) ++ [digitChar (n % 10)] := by
  rw [natDigits, natDigitsGo, if_neg (by omega)]
  rw [natDigitsGo_append n (n / 10) [digitChar (n % 10)] (by omega)]
  rw [natDigitsGo_fuel n (n / 10 + 1) (n / 10) [] (by omega) (by omega)]
  rfl

theorem digitChar_toNat (d : Nat) (h : d < 10) : (digitChar d).toNat = 48 + d := by
  interval_cases d <;> decide

theorem digitChar_isDigit (d : Nat) (h : d < 10) : (digitChar d).isDigit = true := by
  interval_cases d <;> decide

theorem natDigits_ne_nil (n : Nat) : natDigits n ≠ [] := by
  by_cases h : n < 10
  · rw [natDigits_small n h]
    simp
  · rw [natDigits_step n (by omega)]
    simp

theorem natDigits_all_digit (n : Nat) : ∀ c ∈ natDigits n, c.isDigit = true := by
  induction n using Nat.strong_induction_on with
  | _ n ih =>
    by_cases h : n < 10
    · rw [natDigits_small n h]
      intro c hc
      rw [List.mem_singleton.mp hc]
      exact digitChar_isDigit n h
    · rw [natDigits_step n (by omega)]
      intro c hc
      rcases List.mem_append.mp hc with hc | hc
      · exact ih (n / 10) (by omega) c hc
      · rw [List.mem_singleton.mp hc]
        exact digitChar_isDigit (n % 10) (by omega)

theorem digitsVal_append_singleton (xs : List Char) (c : Char) :
    digitsVal (xs ++ [c]) = 10 * digitsVal xs + (c.toNat - 48) := by
  unfold digitsVal
  rw [List.foldl_append]
  rfl

theorem digitsVal_natDigits (n : Nat) : digitsVal (natDigits n) = n := by
  induction n using Nat.strong_induction_on with
  | _ n ih =>
    by_cases h : n < 10
    · rw [natDigits_small n h]
      show 10 * 0 + ((digitChar n).toNat - 48) = n
      rw [digitChar_toNat n h]
      omega
    · rw [natDigits_step n (by omega), digitsVal_append_singleton,
        ih (n / 10) (by omega), digitChar_toNat (n % 10) (by omega)]
      omega

theorem digit_not_special (c : Char) (h : c.isDigit = true) :
    c ≠ '-' ∧ c ≠ '.' ∧ c ≠ '+' := by
  refine ⟨?_, ?_, ?_⟩ <;> intro hc <;> subst hc <;> exact absurd h (by decide)

theorem digitsU32_some (t : List Char) (v : Nat) (h : digitsU32 t = some v) :
    t ≠ [] ∧ t.all Char.isDigit = true ∧ digitsVal t = v ∧ v < U32 := by
  unfold digitsU32 at h
  by_cases h1 : t = []
  · rw [if_pos h1] at h; cases h
  · rw [if_neg h1] at h
    by_cases h2 : t.all Char.isDigit = true
    · rw [if_pos h2] at h
      by_cases h3 : digitsVal t < U32
      · rw [if_pos h3] at h
        injection h with h
        exact ⟨h1, h2, h, h ▸ h3⟩
      · rw [if_neg h3] at h; cases h
    · rw [if_neg h2] at h; cases h

theorem digitsU32_natDigits (n : Nat) (h : n < U32) :
    digitsU32 (natDigits n) = some n := by
  unfold digitsU32
  rw [if_neg (natDigits_ne_nil n),
    if_pos (List.all_eq_true.mpr (natDigits_all_digit n)),
    digitsVal_natDigits, if_pos h]

/-- Rust's `u32` parsing accepts the canonical decimal form. -/
theorem parseU32_natDigits (n : Nat) (h : n < U32) :
    parseU32 (natDigits n) = some n := by
  unfold parseU32
  split
  · -- the digits cannot start with '+'
    rename_i rest heq
    have hplus : '+' ∈ natDigits n := by rw [heq]; exact List.mem_cons_self _ _
    have := natDigits_all_digit n '+' hplus
    exact absurd this (by decide)
  · exact digitsU32_natDigits n h

/-- Any field Rust's `u32` parsing accepts has the optional-plus digit
shape. -/
theorem parseU32_sound (A : List Char) (v : Nat) (h : parseU32 A = some v) :
    fieldOk A v := by
  unfold parseU32 at h
  split at h
  · rename_i rest
    obtain ⟨h1, h2, h3, h4⟩ := digitsU32_some rest v h
    exact ⟨rest, Or.inr rfl, h1, h2, h3, h4⟩
  · obtain ⟨h1, h2, h3, h4⟩ := digitsU32_some A v h
    exact ⟨A, Or.inl rfl, h1, h2, h3, h4⟩

theorem findIdxq_of_eq_some (p : Char → Bool) :
    ∀ (l : List Char) (i : Nat), List.findIdx? p l = some i →
      i < l.length ∧ p (l.getD i 'a') = true := by
  intro l
  induction l with
  | nil => intro i h; rw [List.findIdx?_nil] at h; cases h
  | cons x xs ih =>
    intro i h
    rw [List.findIdx?_cons] at h
    by_cases hp : p x = true
    · rw [if_pos hp] at h
      injection h with h
      subst h
      exact ⟨by simp, hp⟩
    · rw [if_neg hp] at h
      rw [show (1 : Nat) = 0 + 1 from rfl, List.findIdx?_succ] at h
      rcases ho : List.findIdx? p xs with _ | j
      · rw [ho] at h; cases h
      · rw [ho] at h
        injection h with h
        subst h
        obtain ⟨hj1, hj2⟩ := ih j ho
        refine ⟨by simp; omega, ?_⟩
        rwa [List.getD_cons_succ]

theorem findIdxq_append_first (p : Char → Bool) (xs : List Char) (y : Char)
    (rest : List Char) (hxs : ∀ x ∈ xs, p x = false) (hy : p y = true) :
    List.findIdx? p (xs ++ y :: rest) = some xs.length := by
  induction xs with
  | nil => simp [List.findIdx?_cons, hy]
  | cons a as ih =>
    rw [List.cons_append, List.findIdx?_cons,
      if_neg (by rw [hxs a (List.mem_cons_self a as)]; simp)]
    rw [show (1 : Nat) = 0 + 1 from rfl, List.findIdx?_succ]
    rw [ih (fun x hx => hxs x (List.mem_cons_of_mem a hx))]
    simp

theorem take_getD_drop (l : List Char) :
    ∀ (i : Nat) (d : Char), i < l.length →
      l.take i ++ l.getD i d :: l.drop (i + 1) = l := by
  induction l with
  | nil => intro i d h; simp at h
  | cons x xs ih =>
    intro i d h
    cases i with
    | zero => simp
    | succ j =>
      simp only [List.take, List.getD_cons_succ, List.drop, List.cons_append,
        List.cons.injEq, true_and]
      exact ih j d (by simpa using h)

/-- Soundness of `parse_sstable_name`: every accepted string decomposes as
`<field>-<field>.sst` with both fields in the optional-plus digit grammar. -/
theorem parseSstableName_sound (s : List Char) (l i : Nat)
    (h : parseSstableName s = some (l, i)) :
    ∃ A B, s = A ++ '-' :: (B ++ ".sst".toList) ∧ fieldOk A l ∧ fieldOk B i := by
  unfold parseSstableName at h
  rcases hd : s.findIdx? (· = '-') with _ | dash
  · simp only [hd] at h; cases h
  · simp only [hd] at h
    rcases hl : parseU32 (s.take dash) with _ | lv
    · simp only [hl] at h; cases h
    · simp only [hl] at h
      rcases hdot : (s.drop (dash + 1)).findIdx? (· = '.') with _ | j
      · simp only [hdot] at h; cases h
      · simp only [hdot] at h
        rcases hid : parseU32 ((s.drop (dash + 1)).take j) with _ | iv
        · simp only [hid] at h; cases h
        · simp only [hid] at h
          by_cases hsuf : s.drop (dash + 1 + j) = ".sst".toList
          · rw [if_pos hsuf] at h
            injection h with h
            injection h with h1 h2
            subst h1
            subst h2
            obtain ⟨hdlt, hdch⟩ := findIdxq_of_eq_some _ s dash hd
            refine ⟨s.take dash, (s.drop (dash + 1)).take j, ?_,
              parseU32_sound _ _ hl, parseU32_sound _ _ hid⟩
            have hdec := take_getD_drop s dash 'a' hdlt
            have hgd : s.getD dash 'a' = '-' := by simpa using hdch
            rw [hgd] at hdec
            have hX : s.drop (dash + 1) =
                (s.drop (dash + 1)).take j ++ ".sst".toList := by
              conv_lhs => rw [← List.take_append_drop j (s.drop (dash + 1))]
              rw [List.drop_drop, hsuf]
            rw [hX] at hdec
            exact hdec.symm
          · rw [if_neg hsuf] at h; cases h

/-- The canonical name round-trips through `parse_sstable_name`. -/
theorem parseSstableName_canon (l i : Nat) (hl : l < U32) (hi : i < U32) :
    parseSstableName (canonName l i) = some (l, i) := by
  have hnd_l : ∀ x ∈ natDigits l, (fun c => decide (c = '-')) x = false := by
    intro x hx
    have := (digit_not_special x (natDigits_all_digit l x hx)).1
    simp [this]
  have hnd_i : ∀ x ∈ natDigits i, (fun c => decide (c = '.')) x = false := by
    intro x hx
    have := (digit_not_special x (natDigits_all_digit i x hx)).2.1
    simp [this]
  have hdash : List.findIdx? (· = '-') (canonName l i) = some (natDigits l).length := by
    unfold canonName
    exact findIdxq_append_first _ (natDigits l) '-' _ hnd_l (by simp)
  have htake1 : (canonName l i).take (natDigits l).length = natDigits l := by
    unfold canonName
    exact List.take_left _ _
  have hdrop1 : (canonName l i).drop ((natDigits l).length + 1) =
      natDigits i ++ ".sst".toList := by
    unfold canonName
    rw [← List.drop_drop, List.drop_left]
    rfl
  have hdot : (natDigits i ++ ".sst".toList).findIdx? (· = '.') =
      some (natDigits i).length := by
    rw [show ".sst".toList = '.' :: "sst".toList from rfl]
    exact findIdxq_append_first _ (natDigits i) '.' _ hnd_i (by simp)
  have htake2 : (natDigits i ++ ".sst".toList).take (natDigits i).length =
      natDigits i := List.take_left _ _
  have hdrop2 : (canonName l i).drop
      ((natDigits l).length + 1 + (natDigits i).length) = ".sst".toList := by
    rw [← List.drop_drop, hdrop1, List.drop_left]
  unfold parseSstableName
  simp only [hdash, htake1, parseU32_natDigits l hl, hdrop1, hdot, htake2,
    parseU32_natDigits i hi]
  rw [if_pos hdrop2]

/-! ### WAL framing lemmas -/

theorem drop_eq_getD_cons {α : Type} (l : List α) :
    ∀ (i : Nat) (d : α), i < l.length → l.drop i = l.getD i d :: l.drop (i + 1) := by
  induction l with
  | nil => intro i d h; simp at h
  | cons x xs ih =>
    intro i d h
    cases i with
    | zero => simp
    | succ j =>
      simp only [List.drop, List.getD_cons_succ]
      exact ih j d (by simpa using h)

theorem vecBytes_length (b : List Nat) : (vecBytes b).length = 4 + b.length := by
  simp [vecBytes, u32be_length]

theorem u32be_decodeU32 (bs : List Nat) (h4 : bs.length = 4)
    (hb : ∀ x ∈ bs, x < 256) : u32be (decodeU32 bs) = bs := by
  rcases bs with _ | ⟨b0, _ | ⟨b1, _ | ⟨b2, _ | ⟨b3, _ | ⟨b4, t⟩⟩⟩⟩⟩ <;>
    simp only [List.length_nil, List.length_cons] at h4 <;> try omega
  have h0 := hb b0 (by simp)
  have h1 := hb b1 (by simp)
  have h2 := hb b2 (by simp)
  have h3 := hb b3 (by simp)
  simp only [u32be, decodeU32, List.cons.injEq, and_true]
  refine ⟨?_, ?_, ?_, ?_⟩ <;> omega

theorem decodeU32_lt (bs : List Nat) (h4 : bs.length = 4)
    (hb : ∀ x ∈ bs, x < 256) : decodeU32 bs < U32 := by
  rcases bs with _ | ⟨b0, _ | ⟨b1, _ | ⟨b2, _ | ⟨b3, _ | ⟨b4, t⟩⟩⟩⟩⟩ <;>
    simp only [List.length_nil, List.length_cons] at h4 <;> try omega
  have h0 := hb b0 (by simp)
  have h1 := hb b1 (by simp)
  have h2 := hb b2 (by simp)
  have h3 := hb b3 (by simp)
  simp only [decodeU32, U32]
  omega

theorem readExactAt_of_drop (wal : List Nat) (offset : Nat) (x rest : List Nat)
    (hoff : offset ≤ wal.length) (hdrop : wal.drop offset = x ++ rest) :
    readExactAt wal offset x.length = some x := by
  have hlen : (wal.drop offset).length = wal.length - offset := List.length_drop _ _
  rw [hdrop] at hlen
  simp only [List.length_append] at hlen
  unfold readExactAt
  rw [if_pos (by omega), hdrop, List.take_left]

theorem drop_add (wal : List Nat) (offset n : Nat) :
    wal.drop (offset + n) = (wal.drop offset).drop n := by
  rw [List.drop_drop]

/-- A length-prefixed vector read at an offset holding `vecBytes b`. -/
theorem readVecE_encode (wal : List Nat) (offset : Nat) (b tail : List Nat)
    (hb : b.length < U32) (hoff : offset ≤ wal.length)
    (hdrop : wal.drop offset = vecBytes b ++ tail) :
    readVecE wal offset = .ok (b, offset + 4 + b.length) ∧
    wal.drop (offset + 4 + b.length) = tail ∧
    offset + 4 + b.length ≤ wal.length := by
  have hdrop' : wal.drop offset = u32be b.length ++ (b ++ tail) := by
    rw [hdrop]
    simp [vecBytes, List.append_assoc]
  have h1 := readExactAt_of_drop wal offset (u32be b.length) (b ++ tail) hoff hdrop'
  rw [u32be_length] at h1
  have hlen : (wal.drop offset).length = wal.length - offset := List.length_drop _ _
  rw [hdrop'] at hlen
  simp only [List.length_append, u32be_length] at hlen
  have hd4 : wal.drop (offset + 4) = b ++ tail := by
    rw [drop_add, hdrop', List.drop_left' (u32be_length b.length)]
  have h2 := readExactAt_of_drop wal (offset + 4) b tail (by omega) hd4
  have hd4b : wal.drop (offset + 4 + b.length) = tail := by
    rw [drop_add, hd4, List.drop_left]
  refine ⟨?_, hd4b, by omega⟩
  unfold readVecE
  simp only [h1, decodeU32_u32be, Nat.mod_eq_of_lt hb, h2]

/-- Shape of a successful `read_vec`: the consumed bytes are exactly a
length-prefixed vector, provided the file consists of bytes. -/
theorem readVecE_ok_shape (wal : List Nat) (offset : Nat) (b : List Nat) (o' : Nat)
    (h256 : ∀ x ∈ wal, x < 256) (h : readVecE wal offset = .ok (b, o')) :
    o' = offset + 4 + b.length ∧ b.length < U32 ∧ o' ≤ wal.length ∧
    wal.drop offset = vecBytes b ++ wal.drop o' := by
  unfold readVecE at h
  rcases h1 : readExactAt wal offset 4 with _ | lenB
  · simp only [h1] at h
    exact Except.noConfusion h
  · simp only [h1] at h
    rcases h2 : readExactAt wal (offset + 4) (decodeU32 lenB) with _ | body
    · simp only [h2] at h
      exact Except.noConfusion h
    · simp only [h2] at h
      injection h with h
      injection h with hb ho
      unfold readExactAt at h1 h2
      by_cases c1 : offset + 4 ≤ wal.length
      · rw [if_pos c1] at h1
        injection h1 with h1
        by_cases c2 : offset + 4 + decodeU32 lenB ≤ wal.length
        · rw [if_pos c2] at h2
          injection h2 with h2
          have hlenB4 : lenB.length = 4 := by
            rw [← h1]
            simp [List.length_take, List.length_drop]
            omega
          have hlenBmem : ∀ x ∈ lenB, x < 256 := by
            intro x hx
            rw [← h1] at hx
            exact h256 x (List.mem_of_mem_drop (List.mem_of_mem_take hx))
          have hblen : body.length = decodeU32 lenB := by
            rw [← h2]
            simp [List.length_take, List.length_drop]
            omega
          have hlt : decodeU32 lenB < U32 := decodeU32_lt lenB hlenB4 hlenBmem
          have hsplit1 : wal.drop offset = lenB ++ wal.drop (offset + 4) := by
            conv_lhs => rw [← List.take_append_drop 4 (wal.drop offset)]
            rw [← drop_add, h1]
          have hsplit2 : wal.drop (offset + 4) =
              body ++ wal.drop (offset + 4 + decodeU32 lenB) := by
            conv_lhs =>
              rw [← List.take_append_drop (decodeU32 lenB) (wal.drop (offset + 4))]
            rw [← drop_add, h2]
          refine ⟨by rw [← ho, ← hb, hblen], by rw [← hb, hblen]; exact hlt,
            by rw [← ho]; omega, ?_⟩
          rw [← hb, ← ho, hsplit1, hsplit2, vecBytes, hblen,
            u32be_decodeU32 lenB hlenB4 hlenBmem]
          simp [List.append_assoc]
        · rw [if_neg c2] at h2; cases h2
      · rw [if_neg c1] at h1
        cases h1

/-- `read_vec` on a proper prefix of a length-prefixed vector that ends the
file: an `UnexpectedEof`. -/
theorem readVecE_truncated (wal : List Nat) (offset : Nat) (b p : List Nat)
    (hb : b.length < U32) (hdrop : wal.drop offset = p)
    (hp : properPre p (vecBytes b)) : readVecE wal offset = .error .eof := by
  obtain ⟨t, ht, hpt⟩ := hp
  have hplen : p.length < 4 + b.length := by
    have := congrArg List.length hpt
    simp only [List.length_append, vecBytes_length] at this
    have htpos : 0 < t.length := List.length_pos.mpr ht
    omega
  unfold readVecE
  by_cases h4 : offset + 4 ≤ wal.length
  · have hoff : offset ≤ wal.length := by omega
    have hlen : p.length = wal.length - offset := by
      rw [← hdrop]
      exact (List.length_drop _ _)
    have hp4 : 4 ≤ p.length := by omega
    have htake : (wal.drop offset).take 4 = u32be b.length := by
      rw [hdrop]
      have : p.take 4 = (p ++ t).take 4 := (List.take_append_of_le_length hp4).symm
      rw [this, hpt, vecBytes, List.take_append_of_le_length (by rw [u32be_length]),
        List.take_of_length_le (by rw [u32be_length])]
    have h1 : readExactAt wal offset 4 = some (u32be b.length) := by
      unfold readExactAt
      rw [if_pos h4, htake]
    rw [h1]
    simp only [decodeU32_u32be, Nat.mod_eq_of_lt hb]
    have h2 : readExactAt wal (offset + 4) b.length = none := by
      unfold readExactAt
      rw [if_neg (by omega)]
    rw [h2]
  · have h1 : readExactAt wal offset 4 = none := by
      unfold readExactAt
      rw [if_neg h4]
    rw [h1]

/-- One iteration of the replay loop across a complete well-formed record:
the reads succeed and the loop continues after the record with the stepped
state. -/
theorem walGo_record (wal : List Nat) (f : Nat) (r : WalRecord) (hr : recordWF r)
    (offset : Nat) (mem : List (List Nat × List Nat)) (inc : List (List Char))
    (tail : List Nat) (hoff : offset ≤ wal.length)
    (hdrop : wal.drop offset = encodeRecord r ++ tail) :
    walGo wal (f + 1) offset mem inc =
      walGo wal f (offset + (encodeRecord r).length) (stepMem r mem) (stepInc r inc) := by
  cases r with
  | put k v =>
    obtain ⟨hk, hv⟩ := hr
    have hdrop0 : wal.drop offset = [0] ++ (vecBytes k ++ (vecBytes v ++ tail)) := by
      rw [hdrop]
      simp [encodeRecord, List.append_assoc]
    have htag : readExactAt wal offset 1 = some [0] := by
      have := readExactAt_of_drop wal offset [0] _ hoff hdrop0
      simpa using this
    have hlen : (wal.drop offset).length = wal.length - offset := List.length_drop _ _
    rw [hdrop0] at hlen
    simp only [List.length_append, List.length_cons, List.length_nil] at hlen
    have hoff1 : offset + 1 ≤ wal.length := by omega
    have hdrop1 : wal.drop (offset + 1) = vecBytes k ++ (vecBytes v ++ tail) := by
      rw [drop_add, hdrop0]
      rfl
    obtain ⟨hv1, hdrop2, hoff2⟩ := readVecE_encode wal (offset + 1) k
      (vecBytes v ++ tail) hk hoff1 hdrop1
    obtain ⟨hv2, hdrop3, hoff3⟩ := readVecE_encode wal (offset + 1 + 4 + k.length) v
      tail hv hoff2 hdrop2
    rw [walGo]
    simp only [htag, List.headD, if_pos rfl, hv1, hv2]
    rw [show offset + 1 + 4 + k.length + 4 + v.length =
      offset + (encodeRecord (.put k v)).length by
        simp [encodeRecord, vecBytes_length, List.length_append]
        omega]
    rfl
  | del k =>
    have hk := hr
    have hdrop0 : wal.drop offset = [1] ++ (vecBytes k ++ tail) := by
      rw [hdrop]
      simp [encodeRecord, List.append_assoc]
    have htag : readExactAt wal offset 1 = some [1] := by
      have := readExactAt_of_drop wal offset [1] _ hoff hdrop0
      simpa using this
    have hlen : (wal.drop offset).length = wal.length - offset := List.length_drop _ _
    rw [hdrop0] at hlen
    simp only [List.length_append, List.length_cons, List.length_nil] at hlen
    have hoff1 : offset + 1 ≤ wal.length := by omega
    have hdrop1 : wal.drop (offset + 1) = vecBytes k ++ tail := by
      rw [drop_add, hdrop0]
      rfl
    obtain ⟨hv1, hdrop2, hoff2⟩ := readVecE_encode wal (offset + 1) k tail hk hoff1 hdrop1
    rw [walGo]
    simp only [htag, List.headD, if_neg (by decide : ¬(1 : Nat) = 0), if_pos rfl, hv1]
    rw [show offset + 1 + 4 + k.length = offset + (encodeRecord (.del k)).length by
      simp [encodeRecord, vecBytes_length, List.length_append]
      omega]
    rfl
  | sstStart k n =>
    obtain ⟨hk, hn, hascii⟩ := hr
    have hdrop0 : wal.drop offset = [2] ++ (vecBytes k ++ (vecBytes n ++ tail)) := by
      rw [hdrop]
      simp [encodeRecord, List.append_assoc]
    have htag : readExactAt wal offset 1 = some [2] := by
      have := readExactAt_of_drop wal offset [2] _ hoff hdrop0
      simpa using this
    have hlen : (wal.drop offset).length = wal.length - offset := List.length_drop _ _
    rw [hdrop0] at hlen
    simp only [List.length_append, List.length_cons, List.length_nil] at hlen
    have hoff1 : offset + 1 ≤ wal.length := by omega
    have hdrop1 : wal.drop (offset + 1) = vecBytes k ++ (vecBytes n ++ tail) := by
      rw [drop_add, hdrop0]
      rfl
    obtain ⟨hv1, hdrop2, hoff2⟩ := readVecE_encode wal (offset + 1) k
      (vecBytes n ++ tail) hk hoff1 hdrop1
    obtain ⟨hv2, hdrop3, hoff3⟩ := readVecE_encode wal (offset + 1 + 4 + k.length) n
      tail hn hoff2 hdrop2
    have hname : bytesToName n = some (n.map Char.ofNat) := by
      unfold bytesToName
      rw [if_pos (List.all_eq_true.mpr (fun x hx => by simpa using hascii x hx))]
    rw [walGo]
    simp only [htag, List.headD, if_neg (by decide : ¬(2 : Nat) = 0),
      if_neg (by decide : ¬(2 : Nat) = 1), if_pos rfl, hv1, hv2, hname]
    rw [show offset + 1 + 4 + k.length + 4 + n.length =
      offset + (encodeRecord (.sstStart k n)).length by
        simp [encodeRecord, vecBytes_length, List.length_append]
        omega]
    rfl
  | sstEnd k n =>
    obtain ⟨hk, hn, hascii⟩ := hr
    have hdrop0 : wal.drop offset = [3] ++ (vecBytes k ++ (vecBytes n ++ tail)) := by
      rw [hdrop]
      simp [encodeRecord, List.append_assoc]
    have htag : readExactAt wal offset 1 = some [3] := by
      have := readExactAt_of_drop wal offset [3] _ hoff hdrop0
      simpa using this
    have hlen : (wal.drop offset).length = wal.length - offset := List.length_drop _ _
    rw [hdrop0] at hlen
    simp only [List.length_append, List.length_cons, List.length_nil] at hlen
    have hoff1 : offset + 1 ≤ wal.length := by omega
    have hdrop1 : wal.drop (offset + 1) = vecBytes k ++ (vecBytes n ++ tail) := by
      rw [drop_add, hdrop0]
      rfl
    obtain ⟨hv1, hdrop2, hoff2⟩ := readVecE_encode wal (offset + 1) k
      (vecBytes n ++ tail) hk hoff1 hdrop1
    obtain ⟨hv2, hdrop3, hoff3⟩ := readVecE_encode wal (offset + 1 + 4 + k.length) n
      tail hn hoff2 hdrop2
    have hname : bytesToName n = some (n.map Char.ofNat) := by
      unfold bytesToName
      rw [if_pos (List.all_eq_true.mpr (fun x hx => by simpa using hascii x hx))]
    rw [walGo]
    simp only [htag, List.headD, if_neg (by decide : ¬(3 : Nat) = 0),
      if_neg (by decide : ¬(3 : Nat) = 1), if_neg (by decide : ¬(3 : Nat) = 2),
      if_pos rfl, hv1, hv2, hname]
    rw [show offset + 1 + 4 + k.length + 4 + n.length =
      offset + (encodeRecord (.sstEnd k n)).length by
        simp [encodeRecord, vecBytes_length, List.length_append]
        omega]
    rfl

/-- An `UnexpectedEof` at the type-tag read breaks the loop cleanly. -/
theorem walGo_boundary (wal : List Nat) (f offset : Nat)
    (mem : List (List Nat × List Nat)) (inc : List (List Char))
    (h : wal.length < offset + 1) :
    walGo wal (f + 1) offset mem inc = .ok (mem, inc) := by
  rw [walGo]
  unfold readExactAt
  rw [if_neg (by omega)]

/-- The replay loop consumes a sequence of complete well-formed records,
one per fuel unit, accumulating the stepped state. -/
theorem walGo_records (rs : List WalRecord) :
    ∀ (f : Nat) (wal : List Nat) (offset : Nat) (mem : List (List Nat × List Nat))
      (inc : List (List Char)) (tail : List Nat),
      (∀ r ∈ rs, recordWF r) → offset ≤ wal.length →
      wal.drop offset = encodeWal rs ++ tail →
      walGo wal (rs.length + f) offset mem inc =
        walGo wal f (offset + (encodeWal rs).length)
          (runRecords mem inc rs).1 (runRecords mem inc rs).2 := by
  induction rs with
  | nil =>
    intro f wal offset mem inc tail _ _ _
    simp [encodeWal, runRecords]
  | cons r rs ih =>
    intro f wal offset mem inc tail hwf hoff hdrop
    have hdrop' : wal.drop offset = encodeRecord r ++ (encodeWal rs ++ tail) := by
      rw [hdrop]
      simp [encodeWal, List.append_assoc]
    have hstep := walGo_record wal (rs.length + f) r (hwf r (by simp)) offset mem
      inc _ hoff hdrop'
    rw [show (r :: rs).length + f = (rs.length + f) + 1 by
      simp only [List.length_cons]; omega]
    rw [hstep]
    have hlen : (wal.drop offset).length = wal.length - offset := List.length_drop _ _
    rw [hdrop'] at hlen
    simp only [List.length_append] at hlen
    have hoff2 : offset + (encodeRecord r).length ≤ wal.length := by omega
    have hdrop2 : wal.drop (offset + (encodeRecord r).length) =
        encodeWal rs ++ tail := by
      rw [drop_add, hdrop', List.drop_left]
    rw [ih f wal _ (stepMem r mem) (stepInc r inc) tail
      (fun x hx => hwf x (by simp [hx])) hoff2 hdrop2]
    rw [show offset + (encodeRecord r).length + (encodeWal rs).length =
      offset + (encodeWal (r :: rs)).length by
        simp only [encodeWal, List.length_append]; omega]
    rfl

/-- A tag byte outside `0..3` at a record boundary fails replay with the
invalid-type error. -/
theorem walGo_invalid (wal : List Nat) (f offset : Nat)
    (mem : List (List Nat × List Nat)) (inc : List (List Char)) (b : Nat)
    (rest : List Nat) (hb : 4 ≤ b) (hoff : offset ≤ wal.length)
    (hdrop : wal.drop offset = b :: rest) :
    walGo wal (f + 1) offset mem inc =
      .error (.invalid "Invalid WAL entry type") := by
  have htag : readExactAt wal offset 1 = some [b] := by
    have := readExactAt_of_drop wal offset [b] rest hoff (by simpa using hdrop)
    simpa using this
  rw [walGo]
  simp only [htag, List.headD]
  rw [if_neg (by omega), if_neg (by omega), if_neg (by omega), if_neg (by omega)]

/-- A prefix of two concatenated vectors either truncates the first vector
or contains it completely and continues into the rest. -/
theorem vecSplit (q t a rest2 : List Nat) (h : q ++ t = vecBytes a ++ rest2) :
    (∃ t', t' ≠ [] ∧ q ++ t' = vecBytes a) ∨
    (∃ q', q = vecBytes a ++ q' ∧ q' ++ t = rest2) := by
  by_cases hlen : q.length < (vecBytes a).length
  · left
    refine ⟨(vecBytes a).drop q.length, ?_, ?_⟩
    · intro hc
      have := congrArg List.length hc
      simp only [List.length_drop, List.length_nil] at this
      omega
    · have hq : q = (vecBytes a).take q.length := by
        have h1 : (q ++ t).take q.length = q := List.take_left q t
        rw [h, List.take_append_of_le_length (by omega)] at h1
        exact h1.symm
      have hta := List.take_append_drop q.length (vecBytes a)
      rw [← hq] at hta
      exact hta
  · right
    push_neg at hlen
    refine ⟨q.drop (vecBytes a).length, ?_, ?_⟩
    · have hq : q.take (vecBytes a).length = vecBytes a := by
        have h1 : (q ++ t).take (vecBytes a).length = q.take (vecBytes a).length :=
          List.take_append_of_le_length hlen
        rw [h, List.take_left] at h1
        exact h1.symm
      conv_lhs => rw [← List.take_append_drop (vecBytes a).length q]
      rw [hq]
    · have h1 : (q ++ t).drop (vecBytes a).length =
          q.drop (vecBytes a).length ++ t := List.drop_append_of_le_length hlen
      rw [h, List.drop_left] at h1
      exact h1.symm

/-- Replay of a nonempty proper prefix of a well-formed record that ends
the WAL: an `UnexpectedEof` error (EOF inside a record). -/
theorem walGo_truncated (wal : List Nat) (f offset : Nat)
    (mem : List (List Nat × List Nat)) (inc : List (List Char)) (r : WalRecord)
    (hr : recordWF r) (p : List Nat) (hpne : p ≠ [])
    (hpp : properPre p (encodeRecord r)) (hdrop : wal.drop offset = p) :
    walGo wal (f + 1) offset mem inc = .error .eof := by
  obtain ⟨t, ht, hpt⟩ := hpp
  obtain ⟨c, p', hp⟩ := List.exists_cons_of_ne_nil hpne
  subst hp
  have hoff : offset ≤ wal.length := by
    by_contra hc
    push_neg at hc
    rw [List.drop_eq_nil_of_le (by omega)] at hdrop
    exact List.noConfusion hdrop
  have hlen : (wal.drop offset).length = wal.length - offset := List.length_drop _ _
  rw [hdrop] at hlen
  simp only [List.length_cons] at hlen
  have hoff1 : offset + 1 ≤ wal.length := by omega
  have hdrop1 : wal.drop (offset + 1) = p' := by
    rw [drop_add, hdrop]
    rfl
  have htag : readExactAt wal offset 1 = some [c] := by
    have := readExactAt_of_drop wal offset [c] p' hoff (by simpa using hdrop)
    simpa using this
  cases r with
  | put k v =>
    obtain ⟨hk, hv⟩ := hr
    rw [show encodeRecord (.put k v) = 0 :: (vecBytes k ++ vecBytes v) from rfl,
      List.cons_append] at hpt
    injection hpt with hc0 hsplit
    subst hc0
    rcases vecSplit p' t k (vecBytes v) hsplit with ⟨t', ht', hqt⟩ | ⟨q', hq1, hq2⟩
    · have he := readVecE_truncated wal (offset + 1) k p' hk hdrop1 ⟨t', ht', hqt⟩
      rw [walGo]
      simp [htag, List.headD, he]
    · obtain ⟨hv1, hdrop2, hoff2⟩ := readVecE_encode wal (offset + 1) k q' hk hoff1
        (by rw [hdrop1, hq1])
      have he := readVecE_truncated wal (offset + 1 + 4 + k.length) v q' hv hdrop2
        ⟨t, ht, hq2⟩
      rw [walGo]
      simp [htag, List.headD, hv1, he]
  | del k =>
    have hk := hr
    rw [show encodeRecord (.del k) = 1 :: vecBytes k from rfl, List.cons_append] at hpt
    injection hpt with hc0 hsplit
    subst hc0
    have he := readVecE_truncated wal (offset + 1) k p' hk hdrop1 ⟨t, ht, hsplit⟩
    rw [walGo]
    simp [htag, List.headD, he]
  | sstStart k n =>
    obtain ⟨hk, hn, _⟩ := hr
    rw [show encodeRecord (.sstStart k n) = 2 :: (vecBytes k ++ vecBytes n) from rfl,
      List.cons_append] at hpt
    injection hpt with hc0 hsplit
    subst hc0
    rcases vecSplit p' t k (vecBytes n) hsplit with ⟨t', ht', hqt⟩ | ⟨q', hq1, hq2⟩
    · have he := readVecE_truncated wal (offset + 1) k p' hk hdrop1 ⟨t', ht', hqt⟩
      rw [walGo]
      simp [htag, List.headD, he]
    · obtain ⟨hv1, hdrop2, hoff2⟩ := readVecE_encode wal (offset + 1) k q' hk hoff1
        (by rw [hdrop1, hq1])
      have he := readVecE_truncated wal (offset + 1 + 4 + k.length) n q' hn hdrop2
        ⟨t, ht, hq2⟩
      rw [walGo]
      simp [htag, List.headD, hv1, he]
  | sstEnd k n =>
    obtain ⟨hk, hn, _⟩ := hr
    rw [show encodeRecord (.sstEnd k n) = 3 :: (vecBytes k ++ vecBytes n) from rfl,
      List.cons_append] at hpt
    injection hpt with hc0 hsplit
    subst hc0
    rcases vecSplit p' t k (vecBytes n) hsplit with ⟨t', ht', hqt⟩ | ⟨q', hq1, hq2⟩
    · have he := readVecE_truncated wal (offset + 1) k p' hk hdrop1 ⟨t', ht', hqt⟩
      rw [walGo]
      simp [htag, List.headD, he]
    · obtain ⟨hv1, hdrop2, hoff2⟩ := readVecE_encode wal (offset + 1) k q' hk hoff1
        (by rw [hdrop1, hq1])
      have he := readVecE_truncated wal (offset + 1 + 4 + k.length) n q' hn hdrop2
        ⟨t, ht, hq2⟩
      rw [walGo]
      simp [htag, List.headD, hv1, he]

/-- A successful replay decomposes the consumed bytes into a sequence of
complete well-formed records ending exactly at a record boundary. -/
theorem walGo_ok_decomp : ∀ (fuel : Nat) (wal : List Nat) (offset : Nat)
    (mem : List (List Nat × List Nat)) (inc : List (List Char))
    (res : List (List Nat × List Nat) × List (List Char)),
    (∀ x ∈ wal, x < 256) → offset ≤ wal.length →
    walGo wal fuel offset mem inc = .ok res →
    ∃ rs, wal.drop offset = encodeWal rs ∧ ∀ r ∈ rs, recordWF r := by
  intro fuel
  induction fuel with
  | zero =>
    intro wal offset mem inc res _ _ h
    rw [walGo] at h
    exact Except.noConfusion h
  | succ f ih =>
    intro wal offset mem inc res h256 hoff h
    rw [walGo] at h
    rcases htag : readExactAt wal offset 1 with _ | tagB
    · refine ⟨[], ?_, by simp⟩
      unfold readExactAt at htag
      by_cases hc : offset + 1 ≤ wal.length
      · rw [if_pos hc] at htag; cases htag
      · rw [List.drop_eq_nil_of_le (by omega)]; rfl
    · simp only [htag] at h
      have hofflt : offset < wal.length := by
        unfold readExactAt at htag
        by_cases hc : offset + 1 ≤ wal.length
        · omega
        · rw [if_neg hc] at htag; cases htag
      have hdropc : wal.drop offset = wal.getD offset 0 :: wal.drop (offset + 1) :=
        drop_eq_getD_cons wal offset 0 hofflt
      have htagB : tagB = [wal.getD offset 0] := by
        unfold readExactAt at htag
        rw [if_pos (by omega)] at htag
        injection htag with htag
        rw [← htag, hdropc]
        rfl
      subst htagB
      simp only [List.headD_cons] at h
      by_cases h0 : wal.getD offset 0 = 0
      · rw [if_pos h0] at h
        rcases hv1 : readVecE wal (offset + 1) with e | ⟨key, o2⟩
        · simp only [hv1] at h; exact Except.noConfusion h
        · simp only [hv1] at h
          rcases hv2 : readVecE wal o2 with e | ⟨value, o3⟩
          · simp only [hv2] at h; exact Except.noConfusion h
          · simp only [hv2] at h
            obtain ⟨ho2, hklt, ho2len, hshape1⟩ :=
              readVecE_ok_shape wal (offset + 1) key o2 h256 hv1
            obtain ⟨ho3, hvlt, ho3len, hshape2⟩ :=
              readVecE_ok_shape wal o2 value o3 h256 hv2
            obtain ⟨rs, hdec, hwfs⟩ := ih wal o3 _ _ res h256 (by omega) h
            refine ⟨.put key value :: rs, ?_, ?_⟩
            · rw [hdropc, h0, hshape1, hshape2, hdec]
              simp [encodeWal, encodeRecord, List.append_assoc]
            · intro r hrr
              rcases List.mem_cons.mp hrr with hrr | hrr
              · rw [hrr]; exact ⟨hklt, hvlt⟩
              · exact hwfs r hrr
      · rw [if_neg h0] at h
        by_cases h1 : wal.getD offset 0 = 1
        · rw [if_pos h1] at h
          rcases hv1 : readVecE wal (offset + 1) with e | ⟨key, o2⟩
          · simp only [hv1] at h; exact Except.noConfusion h
          · simp only [hv1] at h
            obtain ⟨ho2, hklt, ho2len, hshape1⟩ :=
              readVecE_ok_shape wal (offset + 1) key o2 h256 hv1
            obtain ⟨rs, hdec, hwfs⟩ := ih wal o2 _ _ res h256 (by omega) h
            refine ⟨.del key :: rs, ?_, ?_⟩
            · rw [hdropc, h1, hshape1, hdec]
              simp [encodeWal, encodeRecord, List.append_assoc]
            · intro r hrr
              rcases List.mem_cons.mp hrr with hrr | hrr
              · rw [hrr]; exact hklt
              · exact hwfs r hrr
        · rw [if_neg h1] at h
          by_cases h2 : wal.getD offset 0 = 2
          · rw [if_pos h2] at h
            rcases hv1 : readVecE wal (offset + 1) with e | ⟨key, o2⟩
            · simp only [hv1] at h; exact Except.noConfusion h
            · simp only [hv1] at h
              rcases hv2 : readVecE wal o2 with e | ⟨nameB, o3⟩
              · simp only [hv2] at h; exact Except.noConfusion h
              · simp only [hv2] at h
                rcases hbn : bytesToName nameB with _ | name
                · simp only [hbn] at h; exact Except.noConfusion h
                · simp only [hbn] at h
                  obtain ⟨ho2, hklt, ho2len, hshape1⟩ :=
                    readVecE_ok_shape wal (offset + 1) key o2 h256 hv1
                  obtain ⟨ho3, hnlt, ho3len, hshape2⟩ :=
                    readVecE_ok_shape wal o2 nameB o3 h256 hv2
                  have hascii : ∀ b ∈ nameB, b < 128 := by
                    unfold bytesToName at hbn
                    by_cases hc : nameB.all (· < 128) = true
                    · intro b hb
                      have := List.all_eq_true.mp hc b hb
                      simpa using this
                    · rw [if_neg hc] at hbn; cases hbn
                  obtain ⟨rs, hdec, hwfs⟩ := ih wal o3 _ _ res h256 (by omega) h
                  refine ⟨.sstStart key nameB :: rs, ?_, ?_⟩
                  · rw [hdropc, h2, hshape1, hshape2, hdec]
                    simp [encodeWal, encodeRecord, List.append_assoc]
                  · intro r hrr
                    rcases List.mem_cons.mp hrr with hrr | hrr
                    · rw [hrr]; exact ⟨hklt, hnlt, hascii⟩
                    · exact hwfs r hrr
          · rw [if_neg h2] at h
            by_cases h3 : wal.getD offset 0 = 3
            · rw [if_pos h3] at h
              rcases hv1 : readVecE wal (offset + 1) with e | ⟨key, o2⟩
              · simp only [hv1] at h; exact Except.noConfusion h
              · simp only [hv1] at h
                rcases hv2 : readVecE wal o2 with e | ⟨nameB, o3⟩
                · simp only [hv2] at h; exact Except.noConfusion h
                · simp only [hv2] at h
                  rcases hbn : bytesToName nameB with _ | name
                  · simp only [hbn] at h; exact Except.noConfusion h
                  · simp only [hbn] at h
                    obtain ⟨ho2, hklt, ho2len, hshape1⟩ :=
                      readVecE_ok_shape wal (offset + 1) key o2 h256 hv1
                    obtain ⟨ho3, hnlt, ho3len, hshape2⟩ :=
                      readVecE_ok_shape wal o2 nameB o3 h256 hv2
                    have hascii : ∀ b ∈ nameB, b < 128 := by
                      unfold bytesToName at hbn
                      by_cases hc : nameB.all (· < 128) = true
                      · intro b hb
                        have := List.all_eq_true.mp hc b hb
                        simpa using this
                      · rw [if_neg hc] at hbn; cases hbn
                    obtain ⟨rs, hdec, hwfs⟩ := ih wal o3 _ _ res h256 (by omega) h
                    refine ⟨.sstEnd key nameB :: rs, ?_, ?_⟩
                    · rw [hdropc, h3, hshape1, hshape2, hdec]
                      simp [encodeWal, encodeRecord, List.append_assoc]
                    · intro r hrr
                      rcases List.mem_cons.mp hrr with hrr | hrr
                      · rw [hrr]; exact ⟨hklt, hnlt, hascii⟩
                      · exact hwfs r hrr
            · rw [if_neg h3] at h
              exact Except.noConfusion h

theorem encodeWal_length_ge (rs : List WalRecord) :
    rs.length ≤ (encodeWal rs).length := by
  induction rs with
  | nil => simp [encodeWal]
  | cons r rs ih =>
    have h1 : 1 ≤ (encodeRecord r).length := by
      cases r <;> simp [encodeRecord]
    simp only [encodeWal, List.length_append, List.length_cons]
    omega

/-- Sanity: the S2 operation sequence leaves exactly the four expected
entries in the memtable (matches the repository's memtable unit test). -/
theorem s2_memtable_entries : (applyOps emptyDB s2ops).mem_table = s2entries := by
  decide

/-- C1: the claim fails on the code.  For the strictly-sorted entry list
`E = [(0x61, 0x31)]` ("a" ↦ "1"), `write_sstable` and `SSTableReader::open`
yield a table of size 1, yet `get("a")` returns `None` (no error, not found)
even though `("a","1") ∈ E`; likewise the smallest key "abc" of the
four-entry S2 table is never found.  The size-halving loop probes only
indices `base + half ≥ 1` and has no equality check after the loop, so entry
0 is unreachable. -/
theorem c1_sstable_get_misses_first_entry :
    sstOpen (writeSstable [([97], [49])]) = some 1 ∧
    sstTableGet (writeSstable [([97], [49])]) 1 [97] = some none ∧
    sstTableGet (writeSstable s2entries) 4 (strBytes "abc") = some none ∧
    sstTableGet (writeSstable s2entries) 4 (strBytes "def") =
      some (some (strBytes "777")) := by
  decide

/-- C2: the claim fails on the code.  `maintain` scans the registry for
`level == 0` when choosing `new_id`, but registers and names the new table
at level 1, so the id never advances: starting from the empty database, the
first maintain produces `1-0.sst` (registry `[(1,0)]`), and the second
maintain chooses `new_id = 0` again, reusing the name `1-0.sst` (duplicate
registry key `(1,0)`, still a single blob in storage). -/
theorem c2_second_maintain_reuses_name :
    (dbMaintain emptyDB).1 = .ok () ∧
    (dbMaintain emptyDB).2.sstables.map Prod.fst = [(1, 0)] ∧
    (dbMaintain (dbMaintain emptyDB).2).1 = .ok () ∧
    (dbMaintain (dbMaintain emptyDB).2).2.sstables.map Prod.fst = [(1, 0), (1, 0)] ∧
    newIdFor [((1, 0), ⟨sstName 0, 0⟩)] = 0 ∧
    (dbMaintain (dbMaintain emptyDB).2).2.storage.map Prod.fst = [sstName 0] := by
  decide

/-- C3: the claim fails on the code.  Open a valid database holding one
level-0 table (registry `[(0,0)]`, trivially ascending) and run one
successful maintain: the new table `(1,1)` is inserted at position 0 by the
`partition_point(k > (1, new_id))` call, leaving the registry
`[(1,1), (0,0)]`, which is not sorted ascending; consequently `get`'s
reversed scan visits `(0,0)` before `(1,1)`, i.e. not in `(level, id)`
descending order. -/
theorem c3_registry_not_sorted_after_maintain :
    (dbOpen storageL0 []).map (fun db => (dbMaintain db).2.sstables.map Prod.fst) =
      .ok [(1, 1), (0, 0)] ∧
    ascPairs [(1, 1), (0, 0)] = false ∧
    (dbOpen storageL0 []).map
        (fun db => (dbMaintain db).2.sstables.reverse.map Prod.fst) =
      .ok [(0, 0), (1, 1)] := by
  decide

/-- C4: the claim fails on the code.  With a WAL holding exactly the bytes
`maintain` writes for `WriteSstableStart("1-0.sst")` (tag 2 plus one
length-prefixed name) and a garbage blob `1-0.sst` present, `open` fails
with an `UnexpectedEof` I/O error instead of deleting the blob and producing
an empty memtable: the replay loop reads an extra length-prefixed field
(`key`) before the table name for Start/End records, which the writer never
emits.  Were the record shaped the way the replay loop expects, the cleanup
would work (second conjunct): the blob is deleted, nothing is registered,
and the memtable is empty. -/
theorem c4_open_fails_on_incomplete_flush :
    dbOpen c4storage [] = .error .eof ∧
    (dbOpen c4storageReaderSide []).map (fun db => db.mem_table) = .ok [] ∧
    (dbOpen c4storageReaderSide []).map (fun db => db.sstables) = .ok [] ∧
    (dbOpen c4storageReaderSide []).map (fun db => db.storage.map Prod.fst) =
      .ok [walName] := by
  decide

/-- C7: the claim fails on the code.  `RangeIterator::next` is `todo!()`:
every call panics (modelled as an error), for every database state and
range; in particular `iter_range("def","jkl")` after scenario S2 panics on
its first `next` call instead of yielding `("def","777")`, so the
repository's own `test_database` range assertions cannot pass. -/
theorem c7_range_iterator_panics :
    (∀ db ks ke, rangeIterNext db ks ke = .error ()) ∧
    rangeIterNext (applyOps emptyDB s2ops) (strBytes "def") (strBytes "jkl") =
      .error () := by
  exact ⟨fun _ _ _ => rfl, rfl⟩

/-- C8: write-path atomicity.  For every database state, key and value: if
the WAL append chain of `put` (or `delete`) fails, the call returns the
error and the memtable is exactly unchanged; the memtable is mutated only
when every WAL append succeeded, and then exactly by the corresponding
memtable operation. -/
theorem c8_write_path_atomicity (db : DB) (k v : List Nat) :
    ((dbPut db k v).1 = .error () → (dbPut db k v).2.mem_table = db.mem_table) ∧
    ((dbPut db k v).1 = .ok () →
      (dbPut db k v).2.mem_table = memPut db.mem_table k v) ∧
    ((dbDelete db k).1 = .error () → (dbDelete db k).2.mem_table = db.mem_table) ∧
    ((dbDelete db k).1 = .ok () →
      (dbDelete db k).2.mem_table = (memDelete db.mem_table k).1) := by
  unfold dbPut dbDelete
  rcases h0 : db.wal.append [0] with ⟨r0, w0⟩
  rcases h1 : db.wal.append [1] with ⟨r1, w1⟩
  cases r0 <;> cases r1 <;> simp only []
  all_goals {
    first
    | (rcases hv0 : writeVecA w0 k with ⟨s0, x0⟩ <;>
       rcases hv1 : writeVecA w1 k with ⟨s1, x1⟩ <;>
       cases s0 <;> cases s1 <;> simp only [] <;>
       first
       | (rcases hv2 : writeVecA x0 v with ⟨s2, x2⟩ <;> cases s2 <;> simp)
       | simp)
    | simp }

/-- Witness for C8 at concrete inputs: with a first-append-fails plan the
memtable is untouched; with an all-success plan the memtable receives the
put. -/
theorem c8_write_path_atomicity_witness :
    (dbPut ⟨[], [], [], ⟨[], [false]⟩⟩ [5] [6]).2.mem_table = [] ∧
    (dbPut ⟨[], [], [], ⟨[], []⟩⟩ [5] [6]).2.mem_table = memPut [] [5] [6] := by
  refine ⟨(c8_write_path_atomicity ⟨[], [], [], ⟨[], [false]⟩⟩ [5] [6]).1 (by decide),
    (c8_write_path_atomicity ⟨[], [], [], ⟨[], []⟩⟩ [5] [6]).2.1 (by decide)⟩

/-- C10: a maintain (successful or not) never touches the memtable entry
list, and every key the pre-flush memtable serves is afterwards still served
from the memtable with the same value (the memtable is consulted before any
sstable). -/
theorem c10_maintain_leaves_memtable_unchanged (db : DB) :
    (dbMaintain db).2.mem_table = db.mem_table ∧
    ∀ k v, memGet db.mem_table k = some v →
      dbGet (dbMaintain db).2 k = .ok (some v) := by
  have hmem : (dbMaintain db).2.mem_table = db.mem_table := by
    simp only [dbMaintain]
    repeat' split
    all_goals rfl
  refine ⟨hmem, fun k v h => ?_⟩
  unfold dbGet
  rw [hmem, h]

/-- Witness for C10: after one put of `5 ↦ 6`, maintain keeps serving
`get 5 = 6` from the memtable. -/
theorem c10_maintain_leaves_memtable_unchanged_witness :
    dbGet (dbMaintain ⟨[], [], [([5], [6])], ⟨[], []⟩⟩).2 [5] = .ok (some [6]) :=
  (c10_maintain_leaves_memtable_unchanged ⟨[], [], [([5], [6])], ⟨[], []⟩⟩).2
    [5] [6] (by decide)

/-- C5: maintain idempotence on reads.  For every put/delete sequence `S`
run from the empty database (with the all-success WAL plan) whose resulting
memtable satisfies the size bounds, the maintain succeeds and `get k`
returns the same result before and after it, for every key `k`: present
keys are still served by the untouched memtable, and absent keys miss both
the memtable and the freshly written sstable (whose search never returns a
value for a key not among the entries). -/
theorem c5_maintain_idempotent_reads (S : List Op) (k : List Nat)
    (hwf : entriesWF (applyOps emptyDB S).mem_table) :
    (dbMaintain (applyOps emptyDB S)).1 = .ok () ∧
    dbGet (dbMaintain (applyOps emptyDB S)).2 k = dbGet (applyOps emptyDB S) k := by
  obtain ⟨hst, hss, hpl, hsorted⟩ := applyOps_facts S emptyDB rfl
  have hsort : SortedKeys (applyOps emptyDB S).mem_table := hsorted List.Pairwise.nil
  have hmaint := dbMaintain_from_scratch (applyOps emptyDB S) hst hss hpl hwf.1
  refine ⟨by rw [hmaint], ?_⟩
  rw [hmaint]
  unfold dbGet
  rcases hg : memGet (applyOps emptyDB S).mem_table k with _ | v
  · have hnot : k ∉ (applyOps emptyDB S).mem_table.map Prod.fst :=
      (memGet_none_iff _ _ hsort).mp hg
    simp only [hg, hss, List.reverse_cons, List.reverse_nil, List.nil_append,
      scanTables, storageLookup_singleton,
      sstTableGet_notfound (applyOps emptyDB S).mem_table k hwf hnot]
  · simp only [hg]

/-- C9 counterexample: the claim says every string with a signed field is
rejected, but Rust's `u32` parsing accepts an optional leading `+`, so
`"+1-0.sst"` (and `"1-+0.sst"`) parse successfully. -/
theorem c9_plus_signed_field_accepted :
    parseSstableName "+1-0.sst".toList = some (1, 0) ∧
    parseSstableName "1-+0.sst".toList = some (1, 0) := by
  decide

/-- C9 as amended: the round-trip holds for all `level, id < 2^32`; every
accepted string is of the form `<field>-<field>.sst` where each field is a
nonempty ASCII digit run with an optional leading `+` (so all deviations
other than a leading `+` are rejected); and the five literal examples all
reject. -/
theorem c9_name_parsing_amended :
    (∀ level id : Nat, level < U32 → id < U32 →
      parseSstableName (canonName level id) = some (level, id)) ∧
    (∀ (s : List Char) (level id : Nat), parseSstableName s = some (level, id) →
      ∃ A B, s = A ++ '-' :: (B ++ ".sst".toList) ∧
        fieldOk A level ∧ fieldOk B id) ∧
    (parseSstableName [] = none ∧ parseSstableName "-0.sst".toList = none ∧
     parseSstableName "1-.sst".toList = none ∧
     parseSstableName "1-0.".toList = none ∧
     parseSstableName "1-0".toList = none) :=
  ⟨parseSstableName_canon, parseSstableName_sound, by decide⟩

/-- Witness for C9 at `level = 1`, `id = 0`. -/
theorem c9_name_parsing_amended_witness :
    parseSstableName (canonName 1 0) = some (1, 0) :=
  c9_name_parsing_amended.1 1 0 (by decide) (by decide)

/-- C6: WAL replay record framing.  Over byte sequences: (1) replay
terminates cleanly exactly when the WAL is a concatenation of complete
well-formed records — equivalently, when the `UnexpectedEof` occurs while
reading a type tag at a record boundary; (2) a type-tag byte outside `0..3`
at a record boundary fails recovery with the "Invalid WAL entry type"
`InvalidDatabase` error; (3) an EOF inside a record — the WAL ends in a
nonempty proper prefix of a record, cutting a length prefix or payload —
is an `UnexpectedEof` I/O error.  (Records here follow the replay loop's
own grammar: a tag byte, a length-prefixed `key`, then for Put a value and
for WriteSstableStart/End an ASCII table name.) -/
theorem c6_wal_replay_framing :
    (∀ wal : List Nat, (∀ x ∈ wal, x < 256) →
      ((walReplay wal).isOk ↔ ∃ rs, wal = encodeWal rs ∧ ∀ r ∈ rs, recordWF r)) ∧
    (∀ (rs : List WalRecord) (b : Nat) (rest : List Nat),
      (∀ r ∈ rs, recordWF r) → 4 ≤ b →
      walReplay (encodeWal rs ++ b :: rest) =
        .error (.invalid "Invalid WAL entry type")) ∧
    (∀ (rs : List WalRecord) (r : WalRecord) (p : List Nat),
      (∀ x ∈ rs, recordWF x) → recordWF r → p ≠ [] →
      properPre p (encodeRecord r) →
      walReplay (encodeWal rs ++ p) = .error .eof) := by
  refine ⟨?_, ?_, ?_⟩
  · intro wal h256
    constructor
    · intro hok
      rcases hres : walGo wal (wal.length + 1) 0 [] [] with e | res
      · rw [walReplay, hres] at hok
        exact absurd hok (by simp [Except.isOk, Except.toBool])
      · obtain ⟨rs, hdec, hwfs⟩ :=
          walGo_ok_decomp (wal.length + 1) wal 0 [] [] res h256 (by omega) hres
        exact ⟨rs, by simpa using hdec, hwfs⟩
    · rintro ⟨rs, hwal, hwfs⟩
      rw [walReplay]
      have hge : rs.length ≤ wal.length := by
        rw [hwal]
        exact encodeWal_length_ge rs
      rw [show wal.length + 1 = rs.length + (wal.length + 1 - rs.length) by omega]
      rw [walGo_records rs (wal.length + 1 - rs.length) wal 0 [] [] [] hwfs
        (by omega) (by simpa using hwal)]
      rw [show wal.length + 1 - rs.length = (wal.length - rs.length) + 1 by omega]
      rw [walGo_boundary wal (wal.length - rs.length) (0 + (encodeWal rs).length) _ _
        (by rw [← hwal]; omega)]
      simp [Except.isOk, Except.toBool]
  · intro rs b rest hwfs hb
    rw [walReplay]
    have hlen : (encodeWal rs ++ b :: rest).length =
        (encodeWal rs).length + (rest.length + 1) := by
      simp [List.length_append]
    have hge := encodeWal_length_ge rs
    rw [show (encodeWal rs ++ b :: rest).length + 1 =
      rs.length + ((encodeWal rs ++ b :: rest).length + 1 - rs.length) by omega]
    rw [walGo_records rs _ (encodeWal rs ++ b :: rest) 0 [] [] (b :: rest) hwfs
      (by omega) (by simp)]
    rw [show (encodeWal rs ++ b :: rest).length + 1 - rs.length =
      ((encodeWal rs ++ b :: rest).length - rs.length) + 1 by omega]
    exact walGo_invalid _ _ _ _ _ b rest hb (by simp [List.length_append])
      (by simp [List.drop_left])
  · intro rs r p hwfs hr hpne hpp
    rw [walReplay]
    have hlen : (encodeWal rs ++ p).length = (encodeWal rs).length + p.length := by
      simp [List.length_append]
    have hge := encodeWal_length_ge rs
    rw [show (encodeWal rs ++ p).length + 1 =
      rs.length + ((encodeWal rs ++ p).length + 1 - rs.length) by omega]
    rw [walGo_records rs _ (encodeWal rs ++ p) 0 [] [] p hwfs (by omega) (by simp)]
    rw [show (encodeWal rs ++ p).length + 1 - rs.length =
      ((encodeWal rs ++ p).length - rs.length) + 1 by omega]
    exact walGo_truncated _ _ _ _ _ r hr p hpne hpp (by simp [List.drop_left])

/-- Witness for C6: the one-byte WAL `[7]` is an invalid type tag at the
first record boundary. -/
theorem c6_wal_replay_framing_witness :
    walReplay [7] = .error (.invalid "Invalid WAL entry type") :=
  c6_wal_replay_framing.2.1 [] 7 [] (by simp) (by omega)

/-- Witness for C5 at `S = [put 1 2]`, `k = 1`. -/
theorem c5_maintain_idempotent_reads_witness :
    (dbMaintain (applyOps emptyDB [.put [1] [2]])).1 = .ok () ∧
    dbGet (dbMaintain (applyOps emptyDB [.put [1] [2]])).2 [1] =
      dbGet (applyOps emptyDB [.put [1] [2]]) [1] :=
  c5_maintain_idempotent_reads [.put [1] [2]] [1] (by unfold entriesWF; decide)

end Lsm
